import Mathlib

/-!
# Array assignment helpers (`numpy/core/src/common/array_assign.c`)

A shallow embedding of `broadcast_strides`, `raw_array_is_aligned` and
`arrays_overlap`, together with theorems about them.

The C functions receive pointers to `npy_intp` arrays.  Memory is modelled as a
total map from word addresses to `npy_intp` values, a pointer is the word
address of its first element and `p[i]` is the word at `p + i`.  This keeps the
aliasing of `strides` and `out_strides` (which the C code explicitly allows)
inside the model.
-/

namespace ArrayAssign

/-- Memory holding `npy_intp` words, indexed by word address. -/
abbrev Mem := Int → Int

/-- The C assignment `p[0] = v` at word address `a`. -/
def Mem.store (m : Mem) (a v : Int) : Mem :=
  fun x => if x = a then v else m x

/-- Lay out the list `vs` in memory from word address `p` on. -/
def Mem.put (m : Mem) (p : Int) : List Int → Mem
  | [] => m
  | v :: vs => Mem.put (Mem.store m p v) (p + 1) vs

/-- The `n` words of memory from word address `p` on. -/
def Mem.get (m : Mem) (p : Int) (n : Nat) : List Int :=
  (List.range n).map (fun i => m (p + (i : Int)))

/-- The memory in which every word is zero. -/
def Mem.zero : Mem := fun _ => 0

/-! ## `broadcast_strides` -/

/--
The first loop of `broadcast_strides`,
`for (idim = ndim - 1; idim >= idim_start; --idim)`.
The natural number argument is the number of iterations still to run, so the
current `idim` is `idim_start + k` when `k + 1` iterations remain.  The result
is `false` together with the memory at that point when the loop leaves through
`goto broadcast_error`, and `true` with the final memory when it runs to its
end.
-/
def broadcast_loop (shape strides_shape strides out_strides idim_start : Int) :
    Nat → Mem → Bool × Mem
  | 0, m => (true, m)
  | k + 1, m =>
    let idim : Int := idim_start + (k : Int)
    let strides_shape_value := m (strides_shape + (idim - idim_start))
    if strides_shape_value = 1 then
      broadcast_loop shape strides_shape strides out_strides idim_start k
        (Mem.store m (out_strides + idim) 0)
    else if strides_shape_value ≠ m (shape + idim) then
      (false, m)
    else
      broadcast_loop shape strides_shape strides out_strides idim_start k
        (Mem.store m (out_strides + idim) (m (strides + (idim - idim_start))))

/--
The second loop of `broadcast_strides`,
`for (idim = 0; idim < idim_start; ++idim) out_strides[idim] = 0;`,
after its first `n` iterations.
-/
def new_dims_loop (out_strides : Int) : Nat → Mem → Mem
  | 0, m => m
  | n + 1, m => Mem.store (new_dims_loop out_strides n m) (out_strides + (n : Int)) 0

/--
The function `broadcast_strides(ndim, shape, strides_ndim, strides_shape,
strides, strides_name, out_strides)`.  The four pointers are word addresses.
The result is the returned `int` (`0`, or `-1` after `broadcast_error`) and the
memory the call leaves behind.  The error path only builds the exception
message from `strides_name` and the two shapes; it writes no `npy_intp` array.
-/
def broadcast_strides (ndim : Int) (shape : Int) (strides_ndim : Int)
    (strides_shape strides out_strides : Int) (m : Mem) : Int × Mem :=
  let idim_start := ndim - strides_ndim
  if idim_start < 0 then
    (-1, m)
  else
    match broadcast_loop shape strides_shape strides out_strides idim_start
        (ndim - idim_start).toNat m with
    | (false, m1) => (-1, m1)
    | (true, m1) => (0, new_dims_loop out_strides idim_start.toNat m1)

/--
The byte offset `sum_k idx k * p[k]` over the first `n` axes of the stride
array at word address `p`, of the element with multi-index `idx`.
-/
def offset (m : Mem) (p : Int) (idx : Nat → Int) : Nat → Int
  | 0 => 0
  | n + 1 => offset m p idx n + idx n * m (p + (n : Int))

/--
The source index that the broadcast pairs with the target multi-index `idx`:
the `N - M` leading target axes are dropped, and source axis `j` gets `0` when
the source extent `strides_shape[j]` is 1 and `idx (j + (N - M))` otherwise.
-/
def source_index (m : Mem) (strides_shape : Int) (N M : Nat) (idx : Nat → Int) (j : Nat) : Int :=
  if m (strides_shape + (j : Int)) = 1 then 0 else idx (j + (N - M))

/-! ## `raw_array_is_aligned` -/

/-- The cast `(npy_uintp)x` of a signed value on a platform whose words have
`w` bits. -/
def to_uintp (w : Nat) (x : Int) : Nat := (x % 2 ^ w).toNat

/--
Modelled from the spec: the helper `npy_is_aligned(p, alignment)`, which is
declared in `common.h` and is not part of the source at hand.  The
specification describes it as a bitmask test that the low `log2(alignment)`
bits of the accumulated value are all zero; both arguments are `npy_uintp`
words and `alignment - 1` is computed in `w`-bit unsigned arithmetic.
-/
def npy_is_aligned (w : Nat) (p alignment : Nat) : Int :=
  if p &&& ((alignment + (2 ^ w - 1)) % 2 ^ w) = 0 then 1 else 0

/--
The loop `for (i = 0; i < ndim; i++)` of `raw_array_is_aligned`, with `n`
iterations left, loop counter `i` and accumulator `align_check`.  The flag
`relaxed` is the compile-time macro `NPY_RELAXED_STRIDES_CHECKING`.  The result
is `none` when the loop leaves through `return 1` (an axis of extent 0), and
the final `align_check` otherwise.
-/
def align_loop (w : Nat) (relaxed : Bool) (shape strides : Int) (m : Mem) :
    Nat → Int → Nat → Option Nat
  | 0, _, align_check => some align_check
  | n + 1, i, align_check =>
    if relaxed then
      if m (shape + i) > 1 then
        align_loop w relaxed shape strides m n (i + 1)
          (align_check ||| to_uintp w (m (strides + i)))
      else if m (shape + i) = 0 then
        none
      else
        align_loop w relaxed shape strides m n (i + 1) align_check
    else
      align_loop w relaxed shape strides m n (i + 1)
        (align_check ||| to_uintp w (m (strides + i)))

/--
The function `raw_array_is_aligned(ndim, shape, data, strides, alignment)` on a
platform with `w`-bit words.  `shape` and `strides` are word addresses of
`npy_intp` arrays, `data` is the address held by the `char *` argument, and the
result is the returned `int`.
-/
def raw_array_is_aligned (w : Nat) (relaxed : Bool) (ndim : Int) (shape : Int)
    (data : Nat) (strides : Int) (alignment : Int) (m : Mem) : Int :=
  if alignment > 1 then
    match align_loop w relaxed shape strides m ndim.toNat 0 (data % 2 ^ w) with
    | none => 1
    | some align_check => npy_is_aligned w align_check (to_uintp w alignment)
  else
    1

/--
The address `data + sum_k idx k * strides[k]` of the element with multi-index
`idx` in an array of `ndim` axes.
-/
def element_address (m : Mem) (data : Nat) (strides : Int) (ndim : Nat) (idx : Nat → Int) : Int :=
  (data : Int) + offset m strides idx ndim

/-! ## `arrays_overlap` -/

/--
Modelled from the spec: the result type `mem_overlap_t` of the memory-overlap
solver, declared in `mem_overlap.h`, which is not part of the source at hand.
-/
inductive mem_overlap_t where
  | MEM_OVERLAP_NO
  | MEM_OVERLAP_YES
  | MEM_OVERLAP_TOO_HARD
  | MEM_OVERLAP_OVERFLOW
  | MEM_OVERLAP_ERROR
  deriving DecidableEq

/--
Modelled from the spec: the precision mode handed to the memory-overlap solver,
bounding box only (`NPY_MAY_SHARE_BOUNDS`) or exact solution
(`NPY_MAY_SHARE_EXACT`); declared outside the source at hand.
-/
inductive precision_mode where
  | NPY_MAY_SHARE_BOUNDS
  | NPY_MAY_SHARE_EXACT
  deriving DecidableEq

/--
The function `arrays_overlap(arr1, arr2)`.  The external collaborator
`solve_may_share_memory` and the array object type are parameters.
-/
def arrays_overlap {PyArrayObject : Type}
    (solve_may_share_memory : PyArrayObject → PyArrayObject → precision_mode → mem_overlap_t)
    (arr1 arr2 : PyArrayObject) : Int :=
  let result := solve_may_share_memory arr1 arr2 precision_mode.NPY_MAY_SHARE_BOUNDS
  if result = mem_overlap_t.MEM_OVERLAP_NO then
    0
  else
    1

/--
Source axis `j` is compatible with the target axis `idim_start + j` it is
paired with: its extent `strides_shape[j]` is 1 or equals `shape[idim_start + j]`.
-/
def compatible_axis (m : Mem) (shape strides_shape idim_start : Int) (j : Nat) : Prop :=
  m (strides_shape + (j : Int)) = 1 ∨
    m (strides_shape + (j : Int)) = m (shape + (idim_start + (j : Int)))

instance (m : Mem) (shape strides_shape idim_start : Int) (j : Nat) :
    Decidable (compatible_axis m shape strides_shape idim_start j) :=
  inferInstanceAs (Decidable (m (strides_shape + (j : Int)) = 1 ∨
    m (strides_shape + (j : Int)) = m (shape + (idim_start + (j : Int)))))

/--
The stride that broadcasting gives to the target axis paired with source axis
`j`: 0 when the source extent is 1, and the source stride `strides[j]` otherwise.
-/
def broadcast_value (m : Mem) (strides_shape strides : Int) (j : Nat) : Int :=
  if m (strides_shape + (j : Int)) = 1 then 0 else m (strides + (j : Int))

/-- Memory for the example of the specification: target shape `(2,3)` at
address 10, source shape `(3,)` at 20, source strides `(4,)` at 30, and an
output buffer at 40 holding arbitrary values. -/
def exampleMem : Mem :=
  Mem.put (Mem.put (Mem.put (Mem.put Mem.zero 10 [2, 3]) 20 [3]) 30 [4]) 40 [77, 88]

/-- Memory for the rejected example of the specification: target shape `(3,4)`
at address 10, source shape `(5,)` at 20, source strides `(8,)` at 30, and an
output buffer at 40. -/
def rejectMem : Mem :=
  Mem.put (Mem.put (Mem.put (Mem.put Mem.zero 10 [3, 4]) 20 [5]) 30 [8]) 40 [77, 88]

/-- Memory for a failing call that writes before it fails: target shape
`(3,4)` at address 10, source shape `(5,1)` at 20, source strides `(8,16)` at
30, and an output buffer at 40 holding `(77,88)`. -/
def partialMem : Mem :=
  Mem.put (Mem.put (Mem.put (Mem.put Mem.zero 10 [3, 4]) 20 [5, 1]) 30 [8, 16]) 40 [77, 88]

/-- The multi-index `(1,2)`. -/
def exampleIdx : Nat → Int := fun k => if k = 0 then 1 else 2

/--
The word `x` has a nonzero bit among its low `k` bits (the low
`log2(alignment)` bits when `alignment` is `2 ^ k`).
-/
def low_bits_nonzero (k : Nat) (x : Nat) : Prop :=
  ∃ b : Nat, b < k ∧ x.testBit b = true

instance (k x : Nat) : Decidable (low_bits_nonzero k x) :=
  inferInstanceAs (Decidable (∃ b : Nat, b < k ∧ x.testBit b = true))

/-- Memory for an aligned array: shape `(3,1,2)` at address 10 and strides
`(16,5,-8)` at 20; the stride 5 belongs to the axis of extent 1. -/
def alignedMem : Mem :=
  Mem.put (Mem.put Mem.zero 10 [3, 1, 2]) 20 [16, 5, -8]

/-- Memory for an empty array: shape `(3,0)` at address 10 and strides
`(3,1)` at 20. -/
def emptyMem : Mem :=
  Mem.put (Mem.put Mem.zero 10 [3, 0]) 20 [3, 1]

/-- Memory for a misaligned array: shape `(3,2)` at address 10 and strides
`(8,6)` at 20. -/
def misalignedMem : Mem :=
  Mem.put (Mem.put Mem.zero 10 [3, 2]) 20 [8, 6]

/-- The multi-index `(2,0,1)`. -/
def alignedIdx : Nat → Int := fun k => if k = 0 then 2 else if k = 1 then 0 else 1

/-- A memory-overlap solver that cannot decide, on arrays without content. -/
def undecidedSolver : Unit → Unit → precision_mode → mem_overlap_t :=
  fun _ _ _ => mem_overlap_t.MEM_OVERLAP_TOO_HARD

/-- The example of the specification once more, laid out at other addresses
and with other values in the output buffer: target shape `(2,3)` at address
100, source shape `(3,)` at 200, source strides `(4,)` at 300, and the output
buffer at 400 holding `(5,6)`. -/
def exampleMem2 : Mem :=
  Mem.put (Mem.put (Mem.put (Mem.put Mem.zero 100 [2, 3]) 200 [3]) 300 [4]) 400 [5, 6]

/-- Memory for two broadcasts in a row: source shape `(3,)` at address 10 with
source strides `(4,)` at 20, a first target shape `(1,3)` at 30, a second target
shape `(5,2,3)` at 40, and output buffers at 50 and at 60. -/
def composeMem : Mem :=
  Mem.put (Mem.put (Mem.put (Mem.put (Mem.put (Mem.put Mem.zero 10 [3]) 20 [4]) 30 [1, 3])
    40 [5, 2, 3]) 50 [77, 88]) 60 [91, 92, 93]

/-! ## `broadcast_strides` with its array accesses recorded -/

/-- One access of `broadcast_strides` to one of its four arrays, with the
index used. -/
inductive Access where
  | read_shape (i : Int)
  | read_strides_shape (i : Int)
  | read_strides (i : Int)
  | write_out_strides (i : Int)
  deriving DecidableEq

/--
The first loop of `broadcast_strides` as in `broadcast_loop`, returning in
addition the array accesses in the order the loop makes them.  The test
`strides_shape_value != shape[idim]` is reached, and `shape[idim]` read, only
when `strides_shape_value` is not 1.
-/
def broadcast_loop_traced (shape strides_shape strides out_strides idim_start : Int) :
    Nat → Mem → Bool × Mem × List Access
  | 0, m => (true, m, [])
  | k + 1, m =>
    let idim : Int := idim_start + (k : Int)
    let strides_shape_value := m (strides_shape + (idim - idim_start))
    if strides_shape_value = 1 then
      let r := broadcast_loop_traced shape strides_shape strides out_strides idim_start k
        (Mem.store m (out_strides + idim) 0)
      (r.1, r.2.1,
        Access.read_strides_shape (idim - idim_start) :: Access.write_out_strides idim :: r.2.2)
    else if strides_shape_value ≠ m (shape + idim) then
      (false, m, [Access.read_strides_shape (idim - idim_start), Access.read_shape idim])
    else
      let r := broadcast_loop_traced shape strides_shape strides out_strides idim_start k
        (Mem.store m (out_strides + idim) (m (strides + (idim - idim_start))))
      (r.1, r.2.1,
        Access.read_strides_shape (idim - idim_start) :: Access.read_shape idim ::
          Access.read_strides (idim - idim_start) :: Access.write_out_strides idim :: r.2.2)

/-- The second loop of `broadcast_strides` as in `new_dims_loop`, returning in
addition the array accesses in the order the loop makes them. -/
def new_dims_loop_traced (out_strides : Int) : Nat → Mem → Mem × List Access
  | 0, m => (m, [])
  | n + 1, m =>
    let r := new_dims_loop_traced out_strides n m
    (Mem.store r.1 (out_strides + (n : Int)) 0, r.2 ++ [Access.write_out_strides (n : Int)])

/-- The function `broadcast_strides` as above, returning in addition the
accesses to `shape`, `strides_shape`, `strides` and `out_strides` in the order
the call makes them. -/
def broadcast_strides_traced (ndim : Int) (shape : Int) (strides_ndim : Int)
    (strides_shape strides out_strides : Int) (m : Mem) : Int × Mem × List Access :=
  let idim_start := ndim - strides_ndim
  if idim_start < 0 then
    (-1, m, [])
  else
    match broadcast_loop_traced shape strides_shape strides out_strides idim_start
        (ndim - idim_start).toNat m with
    | (false, m1, t) => (-1, m1, t)
    | (true, m1, t) =>
      let r := new_dims_loop_traced out_strides idim_start.toNat m1
      (0, r.1, t ++ r.2)

/-- The access stays inside its array, for a target of `N` axes and a source of
`M` axes: `shape` and `out_strides` have `N` entries, `strides_shape` and
`strides` have `M`. -/
def Access.in_bounds (N M : Nat) : Access → Prop
  | Access.read_shape i => 0 ≤ i ∧ i < (N : Int)
  | Access.read_strides_shape i => 0 ≤ i ∧ i < (M : Int)
  | Access.read_strides i => 0 ≤ i ∧ i < (M : Int)
  | Access.write_out_strides i => 0 ≤ i ∧ i < (N : Int)

/-- The index written, for a write of `out_strides`. -/
def Access.written_index : Access → Option Int
  | Access.write_out_strides i => some i
  | _ => none

/-- The indices of `out_strides` written, in order, one entry per write. -/
def written (t : List Access) : List Int := t.filterMap Access.written_index

/-! ## The accumulated word of the alignment check, as the specification words it -/

/--
The accumulated bitmask of the specification for the first `n` axes: the base
address as an unsigned word, ORed with the unsigned word of every stride whose
shape extent is greater than 1.
-/
def accum_or (w : Nat) (m : Mem) (shape strides : Int) (data : Nat) : Nat → Nat
  | 0 => data % 2 ^ w
  | n + 1 =>
    if 1 < m (shape + (n : Int)) then
      accum_or w m shape strides data n ||| to_uintp w (m (strides + (n : Int)))
    else
      accum_or w m shape strides data n

/-- Memory for an array with a unit axis: shape `(1,2)` at address 10 and
strides `(5,8)` at 20; the odd stride 5 belongs to the axis of extent 1. -/
def unitAxisMem : Mem :=
  Mem.put (Mem.put Mem.zero 10 [1, 2]) 20 [5, 8]

/-! ## Memory regions -/

/--
Modelled from the spec: a memory region, the part of the array object that the
overlap detector looks at.  It has a base address, a shape and strides, paired
axis by axis, and an element size in bytes; the array object type itself is
declared outside the source at hand.
-/
structure MemoryRegion where
  base : Int
  shape : List Int
  strides : List Int
  elsize : Int

/-- The multi-index `idx` is valid for `shape`: it has one entry per axis, with
`0 ≤ idx k < shape[k]`. -/
def valid_index : List Int → List Int → Prop
  | [], [] => True
  | d :: ds, i :: is => 0 ≤ i ∧ i < d ∧ valid_index ds is
  | _, _ => False

/-- The byte offset `sum_k idx k * strides[k]` of a multi-index. -/
def list_offset : List Int → List Int → Int
  | i :: is, s :: ss => i * s + list_offset is ss
  | _, _ => 0

/-- The byte at address `x` belongs to an element of the region. -/
def MemoryRegion.contains (r : MemoryRegion) (x : Int) : Prop :=
  ∃ idx : List Int, valid_index r.shape idx ∧
    ∃ e : Int, 0 ≤ e ∧ e < r.elsize ∧ x = r.base + list_offset idx r.strides + e

/-- The least offset of an element: the negative strides taken to the last
index of their axis. -/
def lower_offset : List Int → List Int → Int
  | d :: ds, s :: ss => min 0 ((d - 1) * s) + lower_offset ds ss
  | _, _ => 0

/-- The greatest offset of an element: the positive strides taken to the last
index of their axis. -/
def upper_offset : List Int → List Int → Int
  | d :: ds, s :: ss => max 0 ((d - 1) * s) + upper_offset ds ss
  | _, _ => 0

/-- The region has an axis without any index. -/
def MemoryRegion.has_empty_axis (r : MemoryRegion) : Bool :=
  r.shape.any (fun d => decide (d ≤ 0))

/-- First address of the bounding byte range of the region. -/
def MemoryRegion.lower (r : MemoryRegion) : Int :=
  if r.has_empty_axis then r.base else r.base + lower_offset r.shape r.strides

/-- First address after the bounding byte range of the region; a region with
an empty axis has the empty range. -/
def MemoryRegion.upper (r : MemoryRegion) : Int :=
  if r.has_empty_axis then r.base else r.base + upper_offset r.shape r.strides + r.elsize

/-- The bounding byte ranges of the two regions do not intersect. -/
def bounds_disjoint (a b : MemoryRegion) : Prop :=
  ¬ (a.lower < b.upper ∧ b.lower < a.upper ∧ a.lower < a.upper ∧ b.lower < b.upper)

instance (a b : MemoryRegion) : Decidable (bounds_disjoint a b) :=
  inferInstanceAs (Decidable (¬ (a.lower < b.upper ∧ b.lower < a.upper ∧
    a.lower < a.upper ∧ b.lower < b.upper)))

/--
Modelled from the spec: a memory-overlap solver that looks at bounding boxes
only.  It answers no when the bounding byte ranges do not intersect and too
hard otherwise; the solver of the repository is outside the source at hand.
-/
def bounds_only_solver (a b : MemoryRegion) (_mode : precision_mode) : mem_overlap_t :=
  if bounds_disjoint a b then mem_overlap_t.MEM_OVERLAP_NO
  else mem_overlap_t.MEM_OVERLAP_TOO_HARD

/-- The region of 8 one-byte elements with unit stride at the addresses
`[0,8)`. -/
def regionLow : MemoryRegion := { base := 0, shape := [8], strides := [1], elsize := 1 }

/-- The region of 8 one-byte elements with unit stride at the addresses
`[8,16)`. -/
def regionHigh : MemoryRegion := { base := 8, shape := [8], strides := [1], elsize := 1 }

/-! ## Facts about the memory model -/

theorem Mem.store_same (m : Mem) (a v : Int) : Mem.store m a v a = v := by
  simp [Mem.store]

theorem Mem.store_other (m : Mem) (a v x : Int) (h : x ≠ a) : Mem.store m a v x = m x := by
  simp [Mem.store, h]

/-! ## The loops of `broadcast_strides` -/

theorem broadcast_loop_succ (shape ss st out s : Int) (k : Nat) (m : Mem) :
    broadcast_loop shape ss st out s (k + 1) m =
      if m (ss + (k : Int)) = 1 then
        broadcast_loop shape ss st out s k (Mem.store m (out + (s + (k : Int))) 0)
      else if m (ss + (k : Int)) ≠ m (shape + (s + (k : Int))) then
        (false, m)
      else
        broadcast_loop shape ss st out s k
          (Mem.store m (out + (s + (k : Int))) (m (st + (k : Int)))) := by
  simp only [broadcast_loop, add_sub_cancel_left]

/--
When the source axes `j0, ..., j0 + d - 1` are all compatible, the first loop
run for `j0 + d` iterations writes their broadcast values and then continues as
the loop for `j0` iterations does.  The output words may be the same storage as
`strides` (each stride is read before the loop reaches its word), but must not
overlap `shape` or `strides_shape`.
-/
theorem broadcast_loop_split (shape ss st out s : Int) (j0 d : Nat) : ∀ m : Mem,
    (∀ i j : Nat, i < j0 + d → j < j0 + d → out + (s + (i : Int)) ≠ shape + (s + (j : Int))) →
    (∀ i j : Nat, i < j0 + d → j < j0 + d → out + (s + (i : Int)) ≠ ss + (j : Int)) →
    (∀ i j : Nat, i < j0 + d → j < i → out + (s + (i : Int)) ≠ st + (j : Int)) →
    (∀ j : Nat, j0 ≤ j → j < j0 + d → compatible_axis m shape ss s j) →
    ∃ m1 : Mem,
      broadcast_loop shape ss st out s (j0 + d) m = broadcast_loop shape ss st out s j0 m1 ∧
      (∀ a : Int, (∀ j : Nat, j0 ≤ j → j < j0 + d → a ≠ out + (s + (j : Int))) → m1 a = m a) ∧
      (∀ j : Nat, j0 ≤ j → j < j0 + d →
        m1 (out + (s + (j : Int))) = broadcast_value m ss st j) := by
  induction d with
  | zero =>
    intro m _ _ _ _
    exact ⟨m, rfl, fun _ _ => rfl, fun j h1 h2 => absurd h2 (by omega)⟩
  | succ d ih =>
    intro m hshape hss hst hok
    have hk : compatible_axis m shape ss s (j0 + d) := hok (j0 + d) (by omega) (by omega)
    -- the memory after the iteration for axis `j0 + d`
    obtain ⟨v, hv, hstep⟩ : ∃ v : Int, v = broadcast_value m ss st (j0 + d) ∧
        broadcast_loop shape ss st out s (j0 + d + 1) m =
          broadcast_loop shape ss st out s (j0 + d)
            (Mem.store m (out + (s + ((j0 + d : Nat) : Int))) v) := by
      refine ⟨broadcast_value m ss st (j0 + d), rfl, ?_⟩
      rw [broadcast_loop_succ]
      unfold broadcast_value
      by_cases h1 : m (ss + ((j0 + d : Nat) : Int)) = 1
      · rw [if_pos h1, if_pos h1]
      · have h2 : m (ss + ((j0 + d : Nat) : Int)) = m (shape + (s + ((j0 + d : Nat) : Int))) :=
          hk.resolve_left h1
        rw [if_neg h1, if_neg (not_not.mpr h2), if_neg h1]
    have hm1_ss : ∀ j : Nat, j < j0 + d →
        Mem.store m (out + (s + ((j0 + d : Nat) : Int))) v (ss + (j : Int)) = m (ss + (j : Int)) := by
      intro j hj
      exact Mem.store_other _ _ _ _ (fun h => hss (j0 + d) j (by omega) (by omega) h.symm)
    have hm1_shape : ∀ j : Nat, j < j0 + d →
        Mem.store m (out + (s + ((j0 + d : Nat) : Int))) v (shape + (s + (j : Int)))
          = m (shape + (s + (j : Int))) := by
      intro j hj
      exact Mem.store_other _ _ _ _ (fun h => hshape (j0 + d) j (by omega) (by omega) h.symm)
    have hm1_st : ∀ j : Nat, j < j0 + d →
        Mem.store m (out + (s + ((j0 + d : Nat) : Int))) v (st + (j : Int)) = m (st + (j : Int)) := by
      intro j hj
      exact Mem.store_other _ _ _ _ (fun h => hst (j0 + d) j (by omega) (by omega) h.symm)
    obtain ⟨m1, hloop, hframe, hval⟩ :=
      ih (Mem.store m (out + (s + ((j0 + d : Nat) : Int))) v)
        (fun i j hi hj => hshape i j (by omega) (by omega))
        (fun i j hi hj => hss i j (by omega) (by omega))
        (fun i j hi hj => hst i j (by omega) hj)
        (fun j hj1 hj2 => by
          have := hok j hj1 (by omega)
          unfold compatible_axis at this ⊢
          rw [hm1_ss j hj2, hm1_shape j hj2]
          exact this)
    refine ⟨m1, ?_, ?_, ?_⟩
    · rw [← hloop, ← hstep]; rfl
    · intro a ha
      rw [hframe a (fun j hj1 hj2 => ha j hj1 (by omega))]
      exact Mem.store_other _ _ _ _ (ha (j0 + d) (by omega) (by omega))
    · intro j hj1 hj2
      by_cases hj : j = j0 + d
      · subst hj
        rw [hframe _ (fun j hj1 hj2 h => by omega), Mem.store_same, hv]
      · have hj3 : j < j0 + d := by omega
        rw [hval j hj1 hj3]
        unfold broadcast_value
        rw [hm1_ss j hj3, hm1_st j hj3]

/-- The first loop succeeds on compatible axes and leaves the broadcast values
of all of them in the output words. -/
theorem broadcast_loop_compatible (shape ss st out s : Int) (k : Nat) (m : Mem)
    (hshape : ∀ i j : Nat, i < k → j < k → out + (s + (i : Int)) ≠ shape + (s + (j : Int)))
    (hss : ∀ i j : Nat, i < k → j < k → out + (s + (i : Int)) ≠ ss + (j : Int))
    (hst : ∀ i j : Nat, i < k → j < i → out + (s + (i : Int)) ≠ st + (j : Int))
    (hok : ∀ j : Nat, j < k → compatible_axis m shape ss s j) :
    ∃ m1 : Mem,
      broadcast_loop shape ss st out s k m = (true, m1) ∧
      (∀ a : Int, (∀ j : Nat, j < k → a ≠ out + (s + (j : Int))) → m1 a = m a) ∧
      (∀ j : Nat, j < k → m1 (out + (s + (j : Int))) = broadcast_value m ss st j) := by
  obtain ⟨m1, h1, h2, h3⟩ := broadcast_loop_split shape ss st out s 0 k m
    (fun i j hi hj => hshape i j (by omega) (by omega))
    (fun i j hi hj => hss i j (by omega) (by omega))
    (fun i j hi hj => hst i j (by omega) hj)
    (fun j _ hj => hok j (by omega))
  rw [Nat.zero_add] at h1
  refine ⟨m1, ?_, ?_, ?_⟩
  · rw [h1]; rfl
  · intro a ha
    exact h2 a (fun j _ hj => ha j (by omega))
  · intro j hj
    exact h3 j (Nat.zero_le j) (by omega)

/-- The first loop fails at the largest incompatible axis `b`, having written
the broadcast values of the axes above `b` and nothing else. -/
theorem broadcast_loop_mismatch (shape ss st out s : Int) (k b : Nat) (m : Mem)
    (hshape : ∀ i j : Nat, i < k → j < k → out + (s + (i : Int)) ≠ shape + (s + (j : Int)))
    (hss : ∀ i j : Nat, i < k → j < k → out + (s + (i : Int)) ≠ ss + (j : Int))
    (hst : ∀ i j : Nat, i < k → j < i → out + (s + (i : Int)) ≠ st + (j : Int))
    (hb : b < k) (hbad : ¬ compatible_axis m shape ss s b)
    (hok : ∀ j : Nat, b < j → j < k → compatible_axis m shape ss s j) :
    ∃ m1 : Mem,
      broadcast_loop shape ss st out s k m = (false, m1) ∧
      (∀ a : Int, (∀ j : Nat, b < j → j < k → a ≠ out + (s + (j : Int))) → m1 a = m a) ∧
      (∀ j : Nat, b < j → j < k → m1 (out + (s + (j : Int))) = broadcast_value m ss st j) := by
  obtain ⟨d, hd⟩ : ∃ d : Nat, k = (b + 1) + d := ⟨k - (b + 1), by omega⟩
  subst hd
  obtain ⟨m1, h1, h2, h3⟩ := broadcast_loop_split shape ss st out s (b + 1) d m
    hshape hss hst (fun j hj1 hj2 => hok j (by omega) hj2)
  have hss1 : m1 (ss + (b : Int)) = m (ss + (b : Int)) :=
    h2 _ (fun j hj1 hj2 h => hss j b (by omega) (by omega) h.symm)
  have hshape1 : m1 (shape + (s + (b : Int))) = m (shape + (s + (b : Int))) :=
    h2 _ (fun j hj1 hj2 h => hshape j b (by omega) (by omega) h.symm)
  unfold compatible_axis at hbad
  have hne1 : ¬ m1 (ss + (b : Int)) = 1 := by
    rw [hss1]; exact fun h => hbad (Or.inl h)
  have hne2 : m1 (ss + (b : Int)) ≠ m1 (shape + (s + (b : Int))) := by
    rw [hss1, hshape1]; exact fun h => hbad (Or.inr h)
  refine ⟨m1, ?_, ?_, ?_⟩
  · rw [h1, broadcast_loop_succ, if_neg hne1, if_pos hne2]
  · intro a ha
    exact h2 a (fun j hj1 hj2 => ha j (by omega) hj2)
  · intro j hj1 hj2
    exact h3 j (by omega) hj2

/-- Whether the first loop runs to its end depends on the extents alone: it
does exactly when every source axis is compatible.  Nothing is asked of
`strides`. -/
theorem broadcast_loop_status (shape ss st out s : Int) (k : Nat) : ∀ m : Mem,
    (∀ i j : Nat, i < k → j < k → out + (s + (i : Int)) ≠ shape + (s + (j : Int))) →
    (∀ i j : Nat, i < k → j < k → out + (s + (i : Int)) ≠ ss + (j : Int)) →
    ((broadcast_loop shape ss st out s k m).1 = true ↔
      ∀ j : Nat, j < k → compatible_axis m shape ss s j) := by
  induction k with
  | zero =>
    intro m _ _
    exact ⟨fun _ j hj => absurd hj (Nat.not_lt_zero j), fun _ => rfl⟩
  | succ k ih =>
    intro m hshape hss
    -- what one successful iteration does to the compatibility of the lower axes
    have hkeep : ∀ v : Int,
        ((broadcast_loop shape ss st out s k (Mem.store m (out + (s + (k : Int))) v)).1 = true ↔
          ∀ j : Nat, j < k → compatible_axis m shape ss s j) := by
      intro v
      rw [ih (Mem.store m (out + (s + (k : Int))) v)
        (fun i j hi hj => hshape i j (by omega) (by omega))
        (fun i j hi hj => hss i j (by omega) (by omega))]
      have e1 : ∀ j : Nat, j < k →
          Mem.store m (out + (s + (k : Int))) v (ss + (j : Int)) = m (ss + (j : Int)) :=
        fun j hj => Mem.store_other _ _ _ _ (fun h => hss k j (by omega) (by omega) h.symm)
      have e2 : ∀ j : Nat, j < k →
          Mem.store m (out + (s + (k : Int))) v (shape + (s + (j : Int)))
            = m (shape + (s + (j : Int))) :=
        fun j hj => Mem.store_other _ _ _ _ (fun h => hshape k j (by omega) (by omega) h.symm)
      constructor
      · intro h j hj
        have := h j hj
        unfold compatible_axis at this ⊢
        rw [e1 j hj, e2 j hj] at this
        exact this
      · intro h j hj
        have := h j hj
        unfold compatible_axis at this ⊢
        rw [e1 j hj, e2 j hj]
        exact this
    have hlast : ∀ (P : Nat → Prop), P k → ((∀ j : Nat, j < k → P j) ↔ ∀ j : Nat, j < k + 1 → P j) := by
      intro P hP
      constructor
      · intro h j hj
        by_cases hjk : j = k
        · rw [hjk]; exact hP
        · exact h j (by omega)
      · intro h j hj
        exact h j (by omega)
    rw [broadcast_loop_succ]
    by_cases h1 : m (ss + (k : Int)) = 1
    · rw [if_pos h1, hkeep 0]
      exact hlast _ (Or.inl h1)
    · rw [if_neg h1]
      by_cases h2 : m (ss + (k : Int)) = m (shape + (s + (k : Int)))
      · rw [if_neg (not_not.mpr h2), hkeep _]
        exact hlast _ (Or.inr h2)
      · rw [if_pos h2]
        constructor
        · intro h; exact absurd h (by simp)
        · intro h
          have := h k (by omega)
          unfold compatible_axis at this
          rcases this with h3 | h3
          · exact absurd h3 h1
          · exact absurd h3 h2

/-- Unless every index below `k` satisfies `P`, there is a largest one that
does not. -/
theorem exists_largest_failing (P : Nat → Prop) (k : Nat) (h : ¬ ∀ j : Nat, j < k → P j) :
    ∃ b : Nat, b < k ∧ ¬ P b ∧ ∀ j : Nat, b < j → j < k → P j := by
  induction k with
  | zero => exact absurd (fun j hj => absurd hj (Nat.not_lt_zero j)) h
  | succ k ih =>
    by_cases hk : P k
    · have h1 : ¬ ∀ j : Nat, j < k → P j := by
        intro hall
        apply h
        intro j hj
        by_cases hjk : j = k
        · rw [hjk]; exact hk
        · exact hall j (by omega)
      obtain ⟨b, hb1, hb2, hb3⟩ := ih h1
      refine ⟨b, by omega, hb2, ?_⟩
      intro j hj1 hj2
      by_cases hjk : j = k
      · rw [hjk]; exact hk
      · exact hb3 j hj1 (by omega)
    · exact ⟨k, by omega, hk, fun j hj1 hj2 => absurd hj2 (by omega)⟩

/-- The second loop leaves every word outside `out_strides[0..n)` alone. -/
theorem new_dims_loop_frame (out : Int) (n : Nat) (m : Mem) (a : Int)
    (ha : ∀ i : Nat, i < n → a ≠ out + (i : Int)) : new_dims_loop out n m a = m a := by
  induction n with
  | zero => rfl
  | succ n ih =>
    show Mem.store (new_dims_loop out n m) (out + (n : Int)) 0 a = m a
    rw [Mem.store_other _ _ _ _ (ha n (by omega))]
    exact ih (fun i hi => ha i (by omega))

/-- The second loop zeroes `out_strides[0..n)`. -/
theorem new_dims_loop_value (out : Int) (n : Nat) (m : Mem) (i : Nat) (hi : i < n) :
    new_dims_loop out n m (out + (i : Int)) = 0 := by
  induction n with
  | zero => exact absurd hi (Nat.not_lt_zero i)
  | succ n ih =>
    show Mem.store (new_dims_loop out n m) (out + (n : Int)) 0 (out + (i : Int)) = 0
    by_cases hin : i = n
    · rw [hin]; exact Mem.store_same _ _ _
    · rw [Mem.store_other _ _ _ _ (by omega)]
      exact ih (by omega)

/-! ## `broadcast_strides` as a whole -/

/-- With more source axes than target axes the call fails without touching
memory. -/
theorem broadcast_strides_too_many_dims (N M : Nat) (shape ss st out : Int) (m : Mem)
    (h : N < M) : broadcast_strides N shape M ss st out m = (-1, m) := by
  unfold broadcast_strides
  have h1 : ((N : Int) - (M : Int)) < 0 := by omega
  simp only [h1, if_true]

/-- The call unfolded for `M ≤ N`: the first loop runs `M` times from
`idim_start = N - M`, the second `N - M` times. -/
theorem broadcast_strides_unfold (N M : Nat) (shape ss st out : Int) (m : Mem) (h : M ≤ N) :
    broadcast_strides N shape M ss st out m =
      match broadcast_loop shape ss st out ((N - M : Nat) : Int) M m with
      | (false, m1) => (-1, m1)
      | (true, m1) => (0, new_dims_loop out (N - M) m1) := by
  unfold broadcast_strides
  have h1 : ¬ (((N - M : Nat) : Int) < 0) := by omega
  have h2 : (N : Int) - (M : Int) = ((N - M : Nat) : Int) := by omega
  have h3 : ((N : Int) - ((N - M : Nat) : Int)).toNat = M := by omega
  simp only [h2, h3, Int.toNat_ofNat]
  rw [if_neg h1]

/--
The general success statement: for `M ≤ N` and compatible shapes the call
returns 0, changes no word outside `out_strides[0..N)`, and leaves the
broadcast strides in `out_strides`.  The output may be the same storage as
`strides`, but must not overlap `shape` or `strides_shape`.
-/
theorem broadcast_strides_success (N M : Nat) (shape ss st out : Int) (m : Mem) (hMN : M ≤ N)
    (hshape : ∀ i j : Nat, i < N → j < N → out + (i : Int) ≠ shape + (j : Int))
    (hss : ∀ i j : Nat, i < N → j < M → out + (i : Int) ≠ ss + (j : Int))
    (hst : ∀ i j : Nat, i < N → j < M → j + (N - M) < i → out + (i : Int) ≠ st + (j : Int))
    (hok : ∀ j : Nat, j < M → compatible_axis m shape ss ((N - M : Nat) : Int) j) :
    (broadcast_strides N shape M ss st out m).1 = 0 ∧
    (∀ a : Int, (∀ i : Nat, i < N → a ≠ out + (i : Int)) →
      (broadcast_strides N shape M ss st out m).2 a = m a) ∧
    (∀ i : Nat, i < N → (broadcast_strides N shape M ss st out m).2 (out + (i : Int)) =
      if i < N - M then 0 else broadcast_value m ss st (i - (N - M))) := by
  obtain ⟨m1, h1, h2, h3⟩ := broadcast_loop_compatible shape ss st out ((N - M : Nat) : Int) M m
    (fun i j hi hj h => hshape (N - M + i) (N - M + j) (by omega) (by omega)
      (by push_cast; exact h))
    (fun i j hi hj h => hss (N - M + i) j (by omega) hj (by push_cast; exact h))
    (fun i j hi hj h => hst (N - M + i) j (by omega) (by omega) (by omega)
      (by push_cast; exact h))
    hok
  rw [broadcast_strides_unfold N M shape ss st out m hMN, h1]
  refine ⟨rfl, ?_, ?_⟩
  · intro a ha
    show new_dims_loop out (N - M) m1 a = m a
    rw [new_dims_loop_frame out (N - M) m1 a (fun i hi => ha i (by omega))]
    apply h2
    intro j hj
    have := ha (N - M + j) (by omega)
    push_cast at this
    exact this
  · intro i hi
    show new_dims_loop out (N - M) m1 (out + (i : Int)) = _
    by_cases hlt : i < N - M
    · rw [if_pos hlt]
      exact new_dims_loop_value out (N - M) m1 i hlt
    · rw [if_neg hlt, new_dims_loop_frame out (N - M) m1 _ (fun i' hi' => by omega)]
      have h4 := h3 (i - (N - M)) (by omega)
      have h5 : ((N - M : Nat) : Int) + ((i - (N - M) : Nat) : Int) = (i : Int) := by omega
      rw [h5] at h4
      exact h4

/--
The general failure statement: for `M ≤ N`, when target axis `N - M + b` is the
largest one whose source axis `b` is incompatible, the call returns -1, has
written the broadcast strides of the target axes above it, and has changed no
other word of memory.
-/
theorem broadcast_strides_failure (N M b : Nat) (shape ss st out : Int) (m : Mem) (hMN : M ≤ N)
    (hshape : ∀ i j : Nat, i < N → j < N → out + (i : Int) ≠ shape + (j : Int))
    (hss : ∀ i j : Nat, i < N → j < M → out + (i : Int) ≠ ss + (j : Int))
    (hst : ∀ i j : Nat, i < N → j < M → j + (N - M) < i → out + (i : Int) ≠ st + (j : Int))
    (hb : b < M) (hbad : ¬ compatible_axis m shape ss ((N - M : Nat) : Int) b)
    (hok : ∀ j : Nat, b < j → j < M → compatible_axis m shape ss ((N - M : Nat) : Int) j) :
    (broadcast_strides N shape M ss st out m).1 = -1 ∧
    (∀ a : Int, (∀ i : Nat, N - M + b < i → i < N → a ≠ out + (i : Int)) →
      (broadcast_strides N shape M ss st out m).2 a = m a) ∧
    (∀ i : Nat, N - M + b < i → i < N →
      (broadcast_strides N shape M ss st out m).2 (out + (i : Int)) =
        broadcast_value m ss st (i - (N - M))) := by
  obtain ⟨m1, h1, h2, h3⟩ := broadcast_loop_mismatch shape ss st out ((N - M : Nat) : Int) M b m
    (fun i j hi hj h => hshape (N - M + i) (N - M + j) (by omega) (by omega)
      (by push_cast; exact h))
    (fun i j hi hj h => hss (N - M + i) j (by omega) hj (by push_cast; exact h))
    (fun i j hi hj h => hst (N - M + i) j (by omega) (by omega) (by omega)
      (by push_cast; exact h))
    hb hbad hok
  rw [broadcast_strides_unfold N M shape ss st out m hMN, h1]
  refine ⟨rfl, ?_, ?_⟩
  · intro a ha
    show m1 a = m a
    apply h2
    intro j hj1 hj2
    have := ha (N - M + j) (by omega) (by omega)
    push_cast at this
    exact this
  · intro i hi1 hi2
    show m1 (out + (i : Int)) = _
    have h4 := h3 (i - (N - M)) (by omega) (by omega)
    have h5 : ((N - M : Nat) : Int) + ((i - (N - M) : Nat) : Int) = (i : Int) := by omega
    rw [h5] at h4
    exact h4

/-- The call returns 0 or -1, and 0 exactly when `M ≤ N` and every source axis
is compatible; the output must not overlap `shape` or `strides_shape`. -/
theorem broadcast_strides_status (N M : Nat) (shape ss st out : Int) (m : Mem)
    (hshape : ∀ i j : Nat, i < N → j < N → out + (i : Int) ≠ shape + (j : Int))
    (hss : ∀ i j : Nat, i < N → j < M → out + (i : Int) ≠ ss + (j : Int)) :
    ((broadcast_strides N shape M ss st out m).1 = 0 ↔
      M ≤ N ∧ ∀ j : Nat, j < M → compatible_axis m shape ss ((N - M : Nat) : Int) j) ∧
    ((broadcast_strides N shape M ss st out m).1 = -1 ↔
      ¬ (M ≤ N ∧ ∀ j : Nat, j < M → compatible_axis m shape ss ((N - M : Nat) : Int) j)) := by
  by_cases hMN : M ≤ N
  · have hst := broadcast_loop_status shape ss st out ((N - M : Nat) : Int) M m
      (fun i j hi hj h => hshape (N - M + i) (N - M + j) (by omega) (by omega)
        (by push_cast; exact h))
      (fun i j hi hj h => hss (N - M + i) j (by omega) hj (by push_cast; exact h))
    rw [broadcast_strides_unfold N M shape ss st out m hMN]
    rcases hloop : broadcast_loop shape ss st out ((N - M : Nat) : Int) M m with ⟨ok, m1⟩
    rw [hloop] at hst
    cases ok with
    | true =>
      have hall := hst.mp rfl
      exact ⟨⟨fun _ => ⟨hMN, hall⟩, fun _ => rfl⟩,
        ⟨fun h => absurd (show (0 : Int) = -1 from h) (by decide),
          fun h => absurd ⟨hMN, hall⟩ h⟩⟩
    | false =>
      have hnot : ¬ ∀ j : Nat, j < M → compatible_axis m shape ss ((N - M : Nat) : Int) j :=
        fun h => absurd (hst.mpr h) (by simp)
      exact ⟨⟨fun h => absurd (show (-1 : Int) = 0 from h) (by decide),
          fun h => absurd h.2 hnot⟩,
        ⟨fun _ h => hnot h.2, fun _ => rfl⟩⟩
  · rw [broadcast_strides_too_many_dims N M shape ss st out m (by omega)]
    exact ⟨⟨fun h => absurd (show (-1 : Int) = 0 from h) (by decide),
        fun h => absurd h.1 hMN⟩,
      ⟨fun _ h => hMN h.1, fun _ => rfl⟩⟩

/-! ## Offsets -/

theorem offset_congr (m m1 : Mem) (p p1 : Int) (idx idx1 : Nat → Int) (n : Nat)
    (h : ∀ k : Nat, k < n → idx k * m (p + (k : Int)) = idx1 k * m1 (p1 + (k : Int))) :
    offset m p idx n = offset m1 p1 idx1 n := by
  induction n with
  | zero => rfl
  | succ n ih =>
    show offset m p idx n + idx n * m (p + (n : Int))
      = offset m1 p1 idx1 n + idx1 n * m1 (p1 + (n : Int))
    rw [ih (fun k hk => h k (by omega)), h n (by omega)]

theorem offset_eq_zero (m : Mem) (p : Int) (idx : Nat → Int) (n : Nat)
    (h : ∀ k : Nat, k < n → m (p + (k : Int)) = 0) : offset m p idx n = 0 := by
  induction n with
  | zero => rfl
  | succ n ih =>
    show offset m p idx n + idx n * m (p + (n : Int)) = 0
    rw [ih (fun k hk => h k (by omega)), h n (by omega)]
    simp

theorem offset_add (m : Mem) (p : Int) (idx : Nat → Int) (a b : Nat) :
    offset m p idx (a + b) =
      offset m p idx a + offset m (p + (a : Int)) (fun k => idx (k + a)) b := by
  induction b with
  | zero => simp [offset]
  | succ b ih =>
    show offset m p idx (a + b) + idx (a + b) * m (p + ((a + b : Nat) : Int)) =
      offset m p idx a + (offset m (p + (a : Int)) (fun k => idx (k + a)) b
        + idx (b + a) * m (p + (a : Int) + (b : Int)))
    rw [ih, Nat.add_comm b a]
    push_cast
    rw [add_assoc p]
    ring

/-! ## The broadcaster's contract -/

/--
C1: for a target shape of length `N` and a source shape and source strides of
length `M ≤ N`, where every source extent is 1 or equals the target extent at
the trailing-aligned axis, `broadcast_strides` returns 0 and the output stride
at every axis `i < N` is 0 if `i < N - M`, 0 if the source extent at
`i - (N - M)` is 1, and the source stride at `i - (N - M)` otherwise.  The
output buffer is separate from the three input arrays.
-/
theorem broadcast_strides_output (N M : Nat) (shape ss st out : Int) (m : Mem) (hMN : M ≤ N)
    (hshape : ∀ i j : Nat, i < N → j < N → out + (i : Int) ≠ shape + (j : Int))
    (hss : ∀ i j : Nat, i < N → j < M → out + (i : Int) ≠ ss + (j : Int))
    (hst : ∀ i j : Nat, i < N → j < M → out + (i : Int) ≠ st + (j : Int))
    (hcompat : ∀ j : Nat, j < M → m (ss + (j : Int)) = 1 ∨
      m (ss + (j : Int)) = m (shape + ((j + (N - M) : Nat) : Int))) :
    (broadcast_strides N shape M ss st out m).1 = 0 ∧
    ∀ i : Nat, i < N → (broadcast_strides N shape M ss st out m).2 (out + (i : Int)) =
      if i < N - M then 0
      else if m (ss + ((i - (N - M) : Nat) : Int)) = 1 then 0
      else m (st + ((i - (N - M) : Nat) : Int)) := by
  have hok : ∀ j : Nat, j < M → compatible_axis m shape ss ((N - M : Nat) : Int) j := by
    intro j hj
    have h := hcompat j hj
    have e : ((j + (N - M) : Nat) : Int) = ((N - M : Nat) : Int) + (j : Int) := by omega
    rw [e] at h
    exact h
  obtain ⟨h1, _, h3⟩ := broadcast_strides_success N M shape ss st out m hMN hshape hss
    (fun i j hi hj _ => hst i j hi hj) hok
  exact ⟨h1, fun i hi => h3 i hi⟩

/-- C1, the example of the specification: target shape `(2,3)`, source shape
`(3,)` and source strides `(4,)` give the output strides `(0,4)`. -/
theorem broadcast_strides_output_witness :
    (broadcast_strides 2 10 1 20 30 40 exampleMem).1 = 0 ∧
    (broadcast_strides 2 10 1 20 30 40 exampleMem).2 40 = 0 ∧
    (broadcast_strides 2 10 1 20 30 40 exampleMem).2 41 = 4 := by
  have h := broadcast_strides_output 2 1 10 20 30 40 exampleMem (by decide)
    (fun i j hi hj => by omega) (fun i j hi hj => by omega) (fun i j hi hj => by omega)
    (fun j hj => by interval_cases j; decide)
  exact ⟨h.1, (h.2 0 (by decide)).trans (by decide), (h.2 1 (by decide)).trans (by decide)⟩

/--
C2: `broadcast_strides` returns -1 if and only if the source has more
dimensions than the target (`M > N`) or some source extent is different from 1
and different from the target extent at the trailing-aligned axis; in every
other case it returns 0.  The output buffer must not overlap the two shape
arrays.
-/
theorem broadcast_strides_fails_iff (N M : Nat) (shape ss st out : Int) (m : Mem)
    (hshape : ∀ i j : Nat, i < N → j < N → out + (i : Int) ≠ shape + (j : Int))
    (hss : ∀ i j : Nat, i < N → j < M → out + (i : Int) ≠ ss + (j : Int)) :
    ((broadcast_strides N shape M ss st out m).1 = -1 ↔
      (N < M ∨ ∃ j : Nat, j < M ∧ m (ss + (j : Int)) ≠ 1 ∧
        m (ss + (j : Int)) ≠ m (shape + ((j + (N - M) : Nat) : Int)))) ∧
    ((broadcast_strides N shape M ss st out m).1 = 0 ↔
      ¬ (N < M ∨ ∃ j : Nat, j < M ∧ m (ss + (j : Int)) ≠ 1 ∧
        m (ss + (j : Int)) ≠ m (shape + ((j + (N - M) : Nat) : Int)))) := by
  have hst := broadcast_strides_status N M shape ss st out m hshape hss
  have e : ∀ j : Nat, ((j + (N - M) : Nat) : Int) = ((N - M : Nat) : Int) + (j : Int) := by
    intro j; omega
  have key : (M ≤ N ∧ ∀ j : Nat, j < M → compatible_axis m shape ss ((N - M : Nat) : Int) j) ↔
      ¬ (N < M ∨ ∃ j : Nat, j < M ∧ m (ss + (j : Int)) ≠ 1 ∧
        m (ss + (j : Int)) ≠ m (shape + ((j + (N - M) : Nat) : Int))) := by
    constructor
    · rintro ⟨h1, h2⟩ (h3 | ⟨j, hj, hn1, hn2⟩)
      · omega
      · have := h2 j hj
        unfold compatible_axis at this
        rw [e j] at hn2
        rcases this with h | h
        · exact hn1 h
        · exact hn2 h
    · intro h
      refine ⟨by_contra (fun hc => h (Or.inl (by omega))), ?_⟩
      intro j hj
      unfold compatible_axis
      by_contra hc
      apply h
      refine Or.inr ⟨j, hj, fun h1 => hc (Or.inl h1), fun h2 => hc (Or.inr ?_)⟩
      rw [e j] at h2
      exact h2
  refine ⟨?_, ?_⟩
  · rw [hst.2, key, not_not]
  · rw [hst.1, key]

/-- C2, the example of the specification: target shape `(3,4)` with source
shape `(5,)` and strides `(8,)` is rejected. -/
theorem broadcast_strides_fails_iff_witness :
    (broadcast_strides 2 10 1 20 30 40 rejectMem).1 = -1 :=
  (broadcast_strides_fails_iff 2 1 10 20 30 40 rejectMem
    (fun i j hi hj => by omega) (fun i j hi hj => by omega)).1.mpr
    (Or.inr ⟨0, by decide, by decide, by decide⟩)

/--
C3: the broadcast strides are equivalent to the source strides.  Whenever
`broadcast_strides` succeeds, for every multi-index `idx` with
`0 ≤ idx k < shape[k]` on all `N` target axes, the offset
`sum_k idx k * out_strides[k]` equals the source offset
`sum_j s_j * strides[j]`, where `s` drops the `N - M` leading target axes and
has `s_j = 0` when `strides_shape[j]` is 1 and `s_j = idx (j + N - M)`
otherwise; and `s` is a valid index of the source.
-/
theorem broadcast_strides_equivalent (N M : Nat) (shape ss st out : Int) (m : Mem)
    (hshape : ∀ i j : Nat, i < N → j < N → out + (i : Int) ≠ shape + (j : Int))
    (hss : ∀ i j : Nat, i < N → j < M → out + (i : Int) ≠ ss + (j : Int))
    (hst : ∀ i j : Nat, i < N → j < M → out + (i : Int) ≠ st + (j : Int))
    (hsucc : (broadcast_strides N shape M ss st out m).1 = 0)
    (idx : Nat → Int)
    (hidx : ∀ k : Nat, k < N → 0 ≤ idx k ∧ idx k < m (shape + (k : Int))) :
    offset (broadcast_strides N shape M ss st out m).2 out idx N =
      offset m st (source_index m ss N M idx) M ∧
    ∀ j : Nat, j < M → 0 ≤ source_index m ss N M idx j ∧
      source_index m ss N M idx j < m (ss + (j : Int)) := by
  obtain ⟨hMN, hok⟩ := (broadcast_strides_status N M shape ss st out m hshape hss).1.mp hsucc
  obtain ⟨_, _, hval⟩ := broadcast_strides_success N M shape ss st out m hMN hshape hss
    (fun i j hi hj _ => hst i j hi hj) hok
  constructor
  · have hN : N = (N - M) + M := by omega
    rw [hN, offset_add, ← hN]
    rw [offset_eq_zero _ out idx (N - M) (fun k hk => by
      rw [hval k (by omega), if_pos hk])]
    rw [zero_add]
    apply offset_congr
    intro j hj
    have e : out + ((N - M : Nat) : Int) + (j : Int) = out + ((j + (N - M) : Nat) : Int) := by
      omega
    rw [e, hval (j + (N - M)) (by omega), if_neg (by omega)]
    have e2 : j + (N - M) - (N - M) = j := by omega
    rw [e2]
    unfold broadcast_value source_index
    by_cases h1 : m (ss + (j : Int)) = 1
    · rw [if_pos h1, if_pos h1]; simp
    · rw [if_neg h1, if_neg h1]
  · intro j hj
    unfold source_index
    by_cases h1 : m (ss + (j : Int)) = 1
    · rw [if_pos h1, h1]; exact ⟨le_refl 0, by decide⟩
    · rw [if_neg h1]
      have h2 := (hok j hj).resolve_left h1
      have h3 := hidx (j + (N - M)) (by omega)
      have e : ((j + (N - M) : Nat) : Int) = ((N - M : Nat) : Int) + (j : Int) := by omega
      rw [e] at h3
      rw [h2]
      exact h3

/-- C3 on the example of the specification, at the multi-index `(1,2)`: the
broadcast offset and the source offset are both 8, and the source index 2 is
below the source extent 3. -/
theorem broadcast_strides_equivalent_witness :
    offset (broadcast_strides 2 10 1 20 30 40 exampleMem).2 40 exampleIdx 2 = 8 ∧
    offset exampleMem 30 (source_index exampleMem 20 2 1 exampleIdx) 1 = 8 ∧
    (0 ≤ source_index exampleMem 20 2 1 exampleIdx 0 ∧
      source_index exampleMem 20 2 1 exampleIdx 0 < exampleMem (20 + ((0 : Nat) : Int))) := by
  have h := broadcast_strides_equivalent 2 1 10 20 30 40 exampleMem
    (fun i j hi hj => by omega) (fun i j hi hj => by omega) (fun i j hi hj => by omega)
    (by decide) exampleIdx (fun k hk => by interval_cases k <;> decide)
  exact ⟨h.1.trans (by decide), by decide, h.2 0 (by decide)⟩

/--
C4: aliasing safety.  For compatible inputs, running `broadcast_strides` in
place on one buffer of length `N` whose first `M` entries hold the source
strides (`strides` and `out_strides` are the same storage) succeeds and leaves
in that buffer the same `N` output strides as running it with a separate
output buffer.
-/
theorem broadcast_strides_aliasing (N M : Nat) (shape ss buf out : Int) (m : Mem) (hMN : M ≤ N)
    (hbuf_shape : ∀ i j : Nat, i < N → j < N → buf + (i : Int) ≠ shape + (j : Int))
    (hbuf_ss : ∀ i j : Nat, i < N → j < M → buf + (i : Int) ≠ ss + (j : Int))
    (hout_shape : ∀ i j : Nat, i < N → j < N → out + (i : Int) ≠ shape + (j : Int))
    (hout_ss : ∀ i j : Nat, i < N → j < M → out + (i : Int) ≠ ss + (j : Int))
    (hout_buf : ∀ i j : Nat, i < N → j < M → out + (i : Int) ≠ buf + (j : Int))
    (hcompat : ∀ j : Nat, j < M → m (ss + (j : Int)) = 1 ∨
      m (ss + (j : Int)) = m (shape + ((j + (N - M) : Nat) : Int))) :
    (broadcast_strides N shape M ss buf buf m).1 = 0 ∧
    (broadcast_strides N shape M ss buf out m).1 = 0 ∧
    ∀ i : Nat, i < N →
      (broadcast_strides N shape M ss buf buf m).2 (buf + (i : Int)) =
        (broadcast_strides N shape M ss buf out m).2 (out + (i : Int)) := by
  have hok : ∀ j : Nat, j < M → compatible_axis m shape ss ((N - M : Nat) : Int) j := by
    intro j hj
    have h := hcompat j hj
    have e : ((j + (N - M) : Nat) : Int) = ((N - M : Nat) : Int) + (j : Int) := by omega
    rw [e] at h
    exact h
  obtain ⟨a1, _, a3⟩ := broadcast_strides_success N M shape ss buf buf m hMN hbuf_shape hbuf_ss
    (fun i j hi hj hlt => by omega) hok
  obtain ⟨b1, _, b3⟩ := broadcast_strides_success N M shape ss buf out m hMN hout_shape hout_ss
    (fun i j hi hj _ => hout_buf i j hi hj) hok
  exact ⟨a1, b1, fun i hi => (a3 i hi).trans (b3 i hi).symm⟩

/-- C4 on the example of the specification: in place on the buffer at address
30, which holds the source stride 4 in its first entry, the call leaves
`(0,4)`, as it does in the separate buffer at address 40. -/
theorem broadcast_strides_aliasing_witness :
    (broadcast_strides 2 10 1 20 30 30 exampleMem).1 = 0 ∧
    (broadcast_strides 2 10 1 20 30 40 exampleMem).1 = 0 ∧
    ∀ i : Nat, i < 2 →
      (broadcast_strides 2 10 1 20 30 30 exampleMem).2 (30 + (i : Int)) =
        (broadcast_strides 2 10 1 20 30 40 exampleMem).2 (40 + (i : Int)) :=
  broadcast_strides_aliasing 2 1 10 20 30 40 exampleMem (by decide)
    (fun i j hi hj => by omega) (fun i j hi hj => by omega)
    (fun i j hi hj => by omega) (fun i j hi hj => by omega) (fun i j hi hj => by omega)
    (fun j hj => by interval_cases j; decide)

/--
C5, counterexample: failure is not atomic.  With target shape `(3,4)`, source
shape `(5,1)` and source strides `(8,16)` the call fails, yet it has already
set the output stride of axis 1 to 0: in the separate output buffer the entry
88 is gone, and in place the source stride 16 is gone.
-/
theorem broadcast_strides_failure_not_atomic :
    ((broadcast_strides 2 10 2 20 30 40 partialMem).1 = -1 ∧
      partialMem 41 = 88 ∧ (broadcast_strides 2 10 2 20 30 40 partialMem).2 41 = 0) ∧
    ((broadcast_strides 2 10 2 20 30 30 partialMem).1 = -1 ∧
      partialMem 31 = 16 ∧ (broadcast_strides 2 10 2 20 30 30 partialMem).2 31 = 0) := by
  decide

/--
C5, amended: whenever `broadcast_strides` fails, with the output buffer either
separate from `strides` or the same storage, then if `M > N` no word of memory
has changed, and otherwise there is a largest target axis `N - M + b` whose
source extent is neither 1 nor the target extent, and every word of memory
other than the output entries above that axis has the value it had before the
call; in particular every `out_strides` entry at an index up to that axis.
-/
theorem broadcast_strides_failure_preserves (N M : Nat) (shape ss st out : Int) (m : Mem)
    (hshape : ∀ i j : Nat, i < N → j < N → out + (i : Int) ≠ shape + (j : Int))
    (hss : ∀ i j : Nat, i < N → j < M → out + (i : Int) ≠ ss + (j : Int))
    (hst : st = out ∨ ∀ i j : Nat, i < N → j < M → out + (i : Int) ≠ st + (j : Int))
    (hfail : (broadcast_strides N shape M ss st out m).1 = -1) :
    (N < M → ∀ a : Int, (broadcast_strides N shape M ss st out m).2 a = m a) ∧
    (M ≤ N → ∃ b : Nat, b < M ∧
      (m (ss + (b : Int)) ≠ 1 ∧ m (ss + (b : Int)) ≠ m (shape + ((b + (N - M) : Nat) : Int))) ∧
      (∀ j : Nat, b < j → j < M → m (ss + (j : Int)) = 1 ∨
        m (ss + (j : Int)) = m (shape + ((j + (N - M) : Nat) : Int))) ∧
      (∀ i : Nat, i ≤ N - M + b →
        (broadcast_strides N shape M ss st out m).2 (out + (i : Int)) = m (out + (i : Int))) ∧
      (∀ a : Int, (∀ i : Nat, N - M + b < i → i < N → a ≠ out + (i : Int)) →
        (broadcast_strides N shape M ss st out m).2 a = m a)) := by
  have e : ∀ j : Nat, ((j + (N - M) : Nat) : Int) = ((N - M : Nat) : Int) + (j : Int) := by
    intro j; omega
  constructor
  · intro h a
    rw [broadcast_strides_too_many_dims N M shape ss st out m h]
  · intro hMN
    have hnot : ¬ ∀ j : Nat, j < M → compatible_axis m shape ss ((N - M : Nat) : Int) j := by
      intro hall
      have := (broadcast_strides_status N M shape ss st out m hshape hss).2.mp hfail
      exact this ⟨hMN, hall⟩
    obtain ⟨b, hb, hbad, hok⟩ := exists_largest_failing _ M hnot
    have hst1 : ∀ i j : Nat, i < N → j < M → j + (N - M) < i → out + (i : Int) ≠ st + (j : Int) := by
      intro i j hi hj hlt
      rcases hst with h | h
      · rw [h]; omega
      · exact h i j hi hj
    obtain ⟨_, h2, _⟩ := broadcast_strides_failure N M b shape ss st out m hMN hshape hss hst1
      hb hbad hok
    refine ⟨b, hb, ?_, ?_, ?_, h2⟩
    · unfold compatible_axis at hbad
      rw [e b]
      exact ⟨fun h => hbad (Or.inl h), fun h => hbad (Or.inr h)⟩
    · intro j hj1 hj2
      have := hok j hj1 hj2
      unfold compatible_axis at this
      rw [e j]
      exact this
    · intro i hi
      exact h2 _ (fun i1 h1 h3 => by omega)

/-- C5, amended, on the failing call with target shape `(3,4)` and source shape
`(5,1)`: nothing but the output entry of axis 1 has changed, so the entry of
axis 0 still holds 77. -/
theorem broadcast_strides_failure_preserves_witness :
    (broadcast_strides 2 10 2 20 30 40 partialMem).2 40 = 77 := by
  have h := (broadcast_strides_failure_preserves 2 2 10 20 30 40 partialMem
    (fun i j hi hj => by omega) (fun i j hi hj => by omega)
    (Or.inr (fun i j hi hj => by omega)) (by decide)).2 (by decide)
  obtain ⟨b, _, _, _, h4, _⟩ := h
  exact (h4 0 (Nat.zero_le _)).trans (by decide)

/-! ## Low bits and divisibility -/

theorem mod_two_pow_eq_zero_iff (x k : Nat) :
    x % 2 ^ k = 0 ↔ ∀ b : Nat, b < k → x.testBit b = false := by
  constructor
  · intro h b hb
    have h1 := Nat.testBit_mod_two_pow x k b
    rw [h, Nat.zero_testBit] at h1
    simpa [hb] using h1.symm
  · intro h
    apply Nat.eq_of_testBit_eq
    intro i
    rw [Nat.testBit_mod_two_pow, Nat.zero_testBit]
    by_cases hi : i < k
    · simp [h i hi]
    · simp [hi]

theorem low_bits_nonzero_iff (k x : Nat) : low_bits_nonzero k x ↔ x % 2 ^ k ≠ 0 := by
  unfold low_bits_nonzero
  rw [Ne, mod_two_pow_eq_zero_iff]
  constructor
  · rintro ⟨b, hb, h⟩ hall
    rw [hall b hb] at h
    exact absurd h (by decide)
  · intro h
    by_contra hc
    apply h
    intro b hb
    by_contra hb2
    exact hc ⟨b, hb, by simpa using hb2⟩

theorem or_mod_two_pow_eq_zero_iff (a b k : Nat) :
    (a ||| b) % 2 ^ k = 0 ↔ a % 2 ^ k = 0 ∧ b % 2 ^ k = 0 := by
  simp only [mod_two_pow_eq_zero_iff, Nat.testBit_or, Bool.or_eq_false_iff]
  constructor
  · intro h
    exact ⟨fun i hi => (h i hi).1, fun i hi => (h i hi).2⟩
  · rintro ⟨h1, h2⟩ i hi
    exact ⟨h1 i hi, h2 i hi⟩

/-- The cast to `npy_uintp` keeps the remainder modulo a power of two that
divides the word range. -/
theorem to_uintp_mod_eq_zero_iff (w k : Nat) (hk : k ≤ w) (x : Int) :
    to_uintp w x % 2 ^ k = 0 ↔ ((2 : Int) ^ k) ∣ x := by
  unfold to_uintp
  have hpos : (0 : Int) < 2 ^ w := by positivity
  have hnn : 0 ≤ x % 2 ^ w := Int.emod_nonneg x (ne_of_gt hpos)
  have hdvd : ((2 : Int) ^ k) ∣ 2 ^ w := pow_dvd_pow 2 hk
  have hcast : (((x % 2 ^ w).toNat % 2 ^ k : Nat) : Int) = x % 2 ^ k := by
    push_cast
    rw [Int.toNat_of_nonneg hnn, Int.emod_emod_of_dvd x hdvd]
  constructor
  · intro h
    apply Int.dvd_of_emod_eq_zero
    rw [← hcast, h]
    rfl
  · intro h
    have h1 := Int.emod_eq_zero_of_dvd h
    rw [← hcast] at h1
    exact_mod_cast h1

/-- For an alignment `2 ^ k` below the word range, `npy_is_aligned` tests the
remainder modulo the alignment. -/
theorem npy_is_aligned_two_pow (w k : Nat) (hk : k < w) (p : Nat) :
    npy_is_aligned w p (to_uintp w ((2 : Int) ^ k)) = if p % 2 ^ k = 0 then 1 else 0 := by
  have hlt : 2 ^ k < 2 ^ w := Nat.pow_lt_pow_right (by decide) hk
  have hpos : 0 < 2 ^ k := Nat.pow_pos (by decide)
  have h1 : to_uintp w ((2 : Int) ^ k) = 2 ^ k := by
    unfold to_uintp
    have : ((2 : Int) ^ k) % 2 ^ w = ((2 ^ k : Nat) : Int) := by
      push_cast
      apply Int.emod_eq_of_lt (by positivity)
      exact_mod_cast hlt
    rw [this, Int.toNat_ofNat]
  have h2 : (2 ^ k + (2 ^ w - 1)) % 2 ^ w = 2 ^ k - 1 := by
    have : 2 ^ k + (2 ^ w - 1) = (2 ^ k - 1) + 2 ^ w := by omega
    rw [this, Nat.add_mod_right, Nat.mod_eq_of_lt (by omega)]
  unfold npy_is_aligned
  rw [h1, h2, Nat.and_pow_two_sub_one_eq_mod]

/-! ## The loop of `raw_array_is_aligned` -/

theorem exists_lt_succ_shift (P : Int → Prop) (i : Int) (n : Nat) :
    (∃ j : Nat, j < n + 1 ∧ P (i + (j : Int))) ↔
      P i ∨ ∃ j : Nat, j < n ∧ P (i + 1 + (j : Int)) := by
  constructor
  · rintro ⟨j, hj, h⟩
    cases j with
    | zero => left; simpa using h
    | succ j =>
      right
      refine ⟨j, by omega, ?_⟩
      have e : i + 1 + (j : Int) = i + ((j + 1 : Nat) : Int) := by omega
      rw [e]; exact h
  · rintro (h | ⟨j, hj, h⟩)
    · exact ⟨0, by omega, by simpa using h⟩
    · refine ⟨j + 1, by omega, ?_⟩
      have e : i + 1 + (j : Int) = i + ((j + 1 : Nat) : Int) := by omega
      rw [← e]; exact h

theorem forall_lt_succ_shift (P : Int → Prop) (i : Int) (n : Nat) :
    (∀ j : Nat, j < n + 1 → P (i + (j : Int))) ↔
      P i ∧ ∀ j : Nat, j < n → P (i + 1 + (j : Int)) := by
  constructor
  · intro h
    refine ⟨by simpa using h 0 (by omega), fun j hj => ?_⟩
    have e : i + 1 + (j : Int) = i + ((j + 1 : Nat) : Int) := by omega
    rw [e]; exact h (j + 1) (by omega)
  · rintro ⟨h0, h⟩ j hj
    cases j with
    | zero => simpa using h0
    | succ j =>
      have e : i + 1 + (j : Int) = i + ((j + 1 : Nat) : Int) := by omega
      rw [← e]; exact h j (by omega)

theorem align_loop_succ (w : Nat) (relaxed : Bool) (shape strides : Int) (m : Mem)
    (n : Nat) (i : Int) (acc : Nat) :
    align_loop w relaxed shape strides m (n + 1) i acc =
      if relaxed then
        if m (shape + i) > 1 then
          align_loop w relaxed shape strides m n (i + 1) (acc ||| to_uintp w (m (strides + i)))
        else if m (shape + i) = 0 then
          none
        else
          align_loop w relaxed shape strides m n (i + 1) acc
      else
        align_loop w relaxed shape strides m n (i + 1)
          (acc ||| to_uintp w (m (strides + i))) := by
  rfl

/-- The loop leaves through `return 1` exactly in the relaxed-strides build on
a shape with an axis of extent 0. -/
theorem align_loop_none_iff (w : Nat) (relaxed : Bool) (shape strides : Int) (m : Mem)
    (n : Nat) : ∀ (i : Int) (acc : Nat),
    align_loop w relaxed shape strides m n i acc = none ↔
      relaxed = true ∧ ∃ j : Nat, j < n ∧ m (shape + (i + (j : Int))) = 0 := by
  induction n with
  | zero =>
    intro i acc
    constructor
    · intro h; exact absurd h (by simp [align_loop])
    · rintro ⟨_, j, hj, _⟩; exact absurd hj (Nat.not_lt_zero j)
  | succ n ih =>
    intro i acc
    have hshift := exists_lt_succ_shift (fun x => m (shape + x) = 0) i n
    simp only at hshift
    rw [align_loop_succ, hshift]
    cases relaxed with
    | false =>
      rw [if_neg (by decide), ih]
      constructor
      · rintro ⟨h, _⟩; exact absurd h (by decide)
      · rintro ⟨h, _⟩; exact absurd h (by decide)
    | true =>
      rw [if_pos rfl]
      by_cases h1 : m (shape + i) > 1
      · rw [if_pos h1, ih]
        constructor
        · rintro ⟨_, h⟩; exact ⟨rfl, Or.inr h⟩
        · rintro ⟨_, h | h⟩
          · omega
          · exact ⟨rfl, h⟩
      · rw [if_neg h1]
        by_cases h2 : m (shape + i) = 0
        · rw [if_pos h2]
          exact ⟨fun _ => ⟨rfl, Or.inl h2⟩, fun _ => rfl⟩
        · rw [if_neg h2, ih]
          constructor
          · rintro ⟨_, h⟩; exact ⟨rfl, Or.inr h⟩
          · rintro ⟨_, h | h⟩
            · exact absurd h h2
            · exact ⟨rfl, h⟩

/-- When the loop runs to its end, the low `k` bits of the accumulated word
are zero exactly when those of the initial word and of every stride that the
loop ORs in are: every stride in the strict build, and the strides of the axes
of extent greater than 1 in the relaxed build. -/
theorem align_loop_some_iff (w : Nat) (relaxed : Bool) (shape strides : Int) (m : Mem)
    (k : Nat) (n : Nat) : ∀ (i : Int) (acc r : Nat),
    align_loop w relaxed shape strides m n i acc = some r →
    (r % 2 ^ k = 0 ↔ acc % 2 ^ k = 0 ∧
      ∀ j : Nat, j < n → (relaxed = false ∨ 1 < m (shape + (i + (j : Int)))) →
        to_uintp w (m (strides + (i + (j : Int)))) % 2 ^ k = 0) := by
  induction n with
  | zero =>
    intro i acc r h
    have hr : acc = r := by simpa [align_loop] using h
    rw [hr]
    exact ⟨fun h => ⟨h, fun j hj => absurd hj (Nat.not_lt_zero j)⟩, fun h => h.1⟩
  | succ n ih =>
    intro i acc r h
    have hshift := forall_lt_succ_shift
      (fun x => (relaxed = false ∨ 1 < m (shape + x)) → to_uintp w (m (strides + x)) % 2 ^ k = 0) i n
    simp only at hshift
    rw [hshift]
    rw [align_loop_succ] at h
    -- an iteration that ORs the stride in
    have hused : (relaxed = false ∨ 1 < m (shape + i)) →
        align_loop w relaxed shape strides m n (i + 1) (acc ||| to_uintp w (m (strides + i)))
          = some r →
        (r % 2 ^ k = 0 ↔ acc % 2 ^ k = 0 ∧
          ((relaxed = false ∨ 1 < m (shape + i)) → to_uintp w (m (strides + i)) % 2 ^ k = 0) ∧
          ∀ j : Nat, j < n → (relaxed = false ∨ 1 < m (shape + (i + 1 + (j : Int)))) →
            to_uintp w (m (strides + (i + 1 + (j : Int)))) % 2 ^ k = 0) := by
      intro hu hl
      rw [ih (i + 1) _ r hl, or_mod_two_pow_eq_zero_iff]
      constructor
      · rintro ⟨⟨h1, h2⟩, h3⟩; exact ⟨h1, fun _ => h2, h3⟩
      · rintro ⟨h1, h2, h3⟩; exact ⟨⟨h1, h2 hu⟩, h3⟩
    cases relaxed with
    | false =>
      rw [if_neg (by decide)] at h
      exact hused (Or.inl rfl) h
    | true =>
      rw [if_pos rfl] at h
      by_cases h1 : m (shape + i) > 1
      · rw [if_pos h1] at h
        exact hused (Or.inr h1) h
      · rw [if_neg h1] at h
        by_cases h2 : m (shape + i) = 0
        · rw [if_pos h2] at h
          exact absurd h (by simp)
        · rw [if_neg h2] at h
          rw [ih (i + 1) acc r h]
          constructor
          · rintro ⟨h3, h4⟩
            refine ⟨h3, ?_, h4⟩
            rintro (h5 | h5)
            · exact absurd h5 (by decide)
            · exact absurd h5 h1
          · rintro ⟨h3, _, h4⟩; exact ⟨h3, h4⟩

/-- A common divisor of all the terms divides the offset. -/
theorem dvd_offset (d : Int) (m : Mem) (p : Int) (idx : Nat → Int) (n : Nat)
    (h : ∀ k : Nat, k < n → d ∣ idx k * m (p + (k : Int))) : d ∣ offset m p idx n := by
  induction n with
  | zero => exact dvd_zero d
  | succ n ih =>
    show d ∣ offset m p idx n + idx n * m (p + (n : Int))
    exact dvd_add (ih (fun k hk => h k (by omega))) (h n (by omega))

/-- The call unfolded for an alignment `2 ^ k` with `1 ≤ k < w`. -/
theorem raw_array_is_aligned_two_pow (w : Nat) (relaxed : Bool) (N : Nat) (shape : Int)
    (data : Nat) (strides : Int) (k : Nat) (m : Mem) (hk1 : 1 ≤ k) (hkw : k < w) :
    raw_array_is_aligned w relaxed N shape data strides ((2 : Int) ^ k) m =
      match align_loop w relaxed shape strides m N 0 (data % 2 ^ w) with
      | none => 1
      | some r => if r % 2 ^ k = 0 then 1 else 0 := by
  have h2 : (2 : Int) ^ k > 1 := by
    have : (2 : Int) ^ 1 ≤ 2 ^ k := pow_le_pow_right₀ (by norm_num) hk1
    omega
  unfold raw_array_is_aligned
  rw [if_pos h2, Int.toNat_ofNat]
  cases align_loop w relaxed shape strides m N 0 (data % 2 ^ w) with
  | none => rfl
  | some r => exact npy_is_aligned_two_pow w k hkw r

/-- The low bits of an address survive the reduction to a word. -/
theorem mod_word_mod_two_pow (w k : Nat) (hk : k ≤ w) (data : Nat) :
    data % 2 ^ w % 2 ^ k = data % 2 ^ k :=
  Nat.mod_mod_of_dvd data (pow_dvd_pow 2 hk)

/-! ## The alignment checker's contract -/

/--
C6: soundness of `raw_array_is_aligned`.  For an alignment `2 ^ k` with
`1 ≤ k` that is below the word range, every base address and every shape and
strides of `N` axes, if the call returns true then every element address
`data + sum_i idx i * strides[i]`, for every multi-index with
`0 ≤ idx i < shape[i]`, is divisible by the alignment.  This holds in both
builds of `NPY_RELAXED_STRIDES_CHECKING`.
-/
theorem raw_array_is_aligned_sound (w : Nat) (relaxed : Bool) (N : Nat) (shape : Int)
    (data : Nat) (strides : Int) (k : Nat) (m : Mem) (hk1 : 1 ≤ k) (hkw : k < w)
    (htrue : raw_array_is_aligned w relaxed N shape data strides ((2 : Int) ^ k) m ≠ 0)
    (idx : Nat → Int)
    (hidx : ∀ i : Nat, i < N → 0 ≤ idx i ∧ idx i < m (shape + (i : Int))) :
    ((2 : Int) ^ k) ∣ element_address m data strides N idx := by
  rw [raw_array_is_aligned_two_pow w relaxed N shape data strides k m hk1 hkw] at htrue
  cases hloop : align_loop w relaxed shape strides m N 0 (data % 2 ^ w) with
  | none =>
    obtain ⟨_, j, hj, h0⟩ := (align_loop_none_iff w relaxed shape strides m N 0 _).mp hloop
    have := hidx j hj
    rw [zero_add] at h0
    omega
  | some r =>
    rw [hloop] at htrue
    have hr : r % 2 ^ k = 0 := by
      by_contra hc
      exact htrue (if_neg hc)
    obtain ⟨hdata, hstr⟩ :=
      (align_loop_some_iff w relaxed shape strides m k N 0 _ r hloop).mp hr
    rw [mod_word_mod_two_pow w k (le_of_lt hkw)] at hdata
    unfold element_address
    apply dvd_add
    · have : (((data % 2 ^ k : Nat)) : Int) = 0 := by rw [hdata]; rfl
      push_cast at this
      exact Int.dvd_of_emod_eq_zero this
    · apply dvd_offset
      intro i hi
      have hb := hidx i hi
      by_cases hu : relaxed = false ∨ 1 < m (shape + (i : Int))
      · have h1 := hstr i hi (by rw [zero_add]; exact hu)
        rw [zero_add] at h1
        exact Dvd.dvd.mul_left ((to_uintp_mod_eq_zero_iff w k (le_of_lt hkw) _).mp h1) _
      · have h1 : idx i = 0 := by
          have : ¬ 1 < m (shape + (i : Int)) := fun h => hu (Or.inr h)
          omega
        rw [h1, zero_mul]
        exact dvd_zero _

/-- C6 on an array of shape `(3,1,2)` with strides `(16,5,-8)` at base address
32 and alignment 8: the call returns true, and the element `(2,0,1)`, at
address 56, is aligned. -/
theorem raw_array_is_aligned_sound_witness :
    element_address alignedMem 32 20 3 alignedIdx = 56 ∧
    ((2 : Int) ^ 3) ∣ element_address alignedMem 32 20 3 alignedIdx :=
  ⟨by decide,
    raw_array_is_aligned_sound 64 true 3 10 32 20 3 alignedMem (by decide) (by decide)
      (by decide) alignedIdx (fun i hi => by interval_cases i <;> decide)⟩

/--
C7: for every alignment `≤ 1`, including 0 and negative values,
`raw_array_is_aligned` returns true (the value 1) for every base address,
every `ndim`, every shape and every strides.
-/
theorem raw_array_is_aligned_trivial (w : Nat) (relaxed : Bool) (ndim shape : Int)
    (data : Nat) (strides alignment : Int) (m : Mem) (h : alignment ≤ 1) :
    raw_array_is_aligned w relaxed ndim shape data strides alignment m = 1 := by
  unfold raw_array_is_aligned
  rw [if_neg (by omega)]

/-- C7 on a misaligned array with the alignment -4. -/
theorem raw_array_is_aligned_trivial_witness :
    raw_array_is_aligned 64 true 2 10 7 20 (-4) misalignedMem = 1 :=
  raw_array_is_aligned_trivial 64 true 2 10 7 20 (-4) misalignedMem (by decide)

/--
C8: in the relaxed-strides build, if some axis `i < ndim` of the shape has
extent exactly 0 then `raw_array_is_aligned` returns true (the value 1),
whatever the alignment, the base address and the strides are.
-/
theorem raw_array_is_aligned_empty (w : Nat) (ndim shape : Int) (data : Nat)
    (strides alignment : Int) (m : Mem) (i : Nat) (hi : (i : Int) < ndim)
    (h0 : m (shape + (i : Int)) = 0) :
    raw_array_is_aligned w true ndim shape data strides alignment m = 1 := by
  unfold raw_array_is_aligned
  by_cases ha : alignment > 1
  · rw [if_pos ha]
    have hnone : align_loop w true shape strides m ndim.toNat 0 (data % 2 ^ w) = none :=
      (align_loop_none_iff w true shape strides m ndim.toNat 0 _).mpr
        ⟨rfl, i, by omega, by rw [zero_add]; exact h0⟩
    rw [hnone]
  · rw [if_neg ha]

/-- C8 on an array of shape `(3,0)` with odd strides at the odd base address
1 and alignment 4. -/
theorem raw_array_is_aligned_empty_witness :
    raw_array_is_aligned 64 true 2 10 1 20 4 emptyMem = 1 :=
  raw_array_is_aligned_empty 64 2 10 1 20 4 emptyMem 1 (by decide) (by decide)

/--
C9, counterexample: in the relaxed-strides build, for the shape `(3,0)` with
strides `(3,1)` at base address 1 and alignment 2, the base address has its low
bit set and so has the stride 3 of the axis of extent 3, yet the call returns
true, because of the axis of extent 0.
-/
theorem raw_array_is_aligned_low_bits_empty :
    low_bits_nonzero 1 1 ∧
    (1 < emptyMem 10 ∧ low_bits_nonzero 1 (to_uintp 64 (emptyMem 20))) ∧
    raw_array_is_aligned 64 true 2 10 1 20 ((2 : Int) ^ 1) emptyMem = 1 := by
  decide

/--
C9, amended: for an alignment `2 ^ k` with `1 ≤ k` below the word range, and a
shape of `N` axes that in the relaxed-strides build has no axis of extent 0,
`raw_array_is_aligned` returns false (the value 0) whenever the base address,
or the word of at least one stride at an axis whose extent is greater than 1,
has a nonzero bit among its low `k` bits.
-/
theorem raw_array_is_aligned_low_bits (w : Nat) (relaxed : Bool) (N : Nat) (shape : Int)
    (data : Nat) (strides : Int) (k : Nat) (m : Mem) (hk1 : 1 ≤ k) (hkw : k < w)
    (hnz : relaxed = true → ∀ i : Nat, i < N → m (shape + (i : Int)) ≠ 0)
    (hbits : low_bits_nonzero k data ∨ ∃ i : Nat, i < N ∧ 1 < m (shape + (i : Int)) ∧
      low_bits_nonzero k (to_uintp w (m (strides + (i : Int))))) :
    raw_array_is_aligned w relaxed N shape data strides ((2 : Int) ^ k) m = 0 := by
  rw [raw_array_is_aligned_two_pow w relaxed N shape data strides k m hk1 hkw]
  cases hloop : align_loop w relaxed shape strides m N 0 (data % 2 ^ w) with
  | none =>
    obtain ⟨hr, j, hj, h0⟩ := (align_loop_none_iff w relaxed shape strides m N 0 _).mp hloop
    rw [zero_add] at h0
    exact absurd h0 (hnz hr j hj)
  | some r =>
    have hr : ¬ r % 2 ^ k = 0 := by
      intro hc
      obtain ⟨hdata, hstr⟩ :=
        (align_loop_some_iff w relaxed shape strides m k N 0 _ r hloop).mp hc
      rw [mod_word_mod_two_pow w k (le_of_lt hkw)] at hdata
      rcases hbits with h | ⟨i, hi, hgt, h⟩
      · exact (low_bits_nonzero_iff k data).mp h hdata
      · have h1 := hstr i hi (by rw [zero_add]; exact Or.inr hgt)
        rw [zero_add] at h1
        exact (low_bits_nonzero_iff k _).mp h h1
    exact if_neg hr

/-- C9, amended, on the shape `(3,2)` with strides `(8,6)` at base address 16
and alignment 4: the stride 6 has bit 1 set, so the call returns false. -/
theorem raw_array_is_aligned_low_bits_witness :
    raw_array_is_aligned 64 true 2 10 16 20 ((2 : Int) ^ 2) misalignedMem = 0 :=
  raw_array_is_aligned_low_bits 64 true 2 10 16 20 2 misalignedMem (by decide) (by decide)
    (fun _ i hi => by interval_cases i <;> decide)
    (Or.inr ⟨1, by decide, by decide, by decide⟩)

/-! ## The overlap detector's contract -/

/--
C10: `arrays_overlap` returns 0 if and only if the memory-overlap solver,
asked in bounds mode, returns `MEM_OVERLAP_NO`; for every other solver result
(yes, too hard, overflow, error) it returns 1.
-/
theorem arrays_overlap_zero_iff {PyArrayObject : Type}
    (solve_may_share_memory : PyArrayObject → PyArrayObject → precision_mode → mem_overlap_t)
    (arr1 arr2 : PyArrayObject) :
    (arrays_overlap solve_may_share_memory arr1 arr2 = 0 ↔
      solve_may_share_memory arr1 arr2 precision_mode.NPY_MAY_SHARE_BOUNDS
        = mem_overlap_t.MEM_OVERLAP_NO) ∧
    (arrays_overlap solve_may_share_memory arr1 arr2 = 1 ↔
      (solve_may_share_memory arr1 arr2 precision_mode.NPY_MAY_SHARE_BOUNDS
          = mem_overlap_t.MEM_OVERLAP_YES ∨
        solve_may_share_memory arr1 arr2 precision_mode.NPY_MAY_SHARE_BOUNDS
          = mem_overlap_t.MEM_OVERLAP_TOO_HARD ∨
        solve_may_share_memory arr1 arr2 precision_mode.NPY_MAY_SHARE_BOUNDS
          = mem_overlap_t.MEM_OVERLAP_OVERFLOW ∨
        solve_may_share_memory arr1 arr2 precision_mode.NPY_MAY_SHARE_BOUNDS
          = mem_overlap_t.MEM_OVERLAP_ERROR)) := by
  unfold arrays_overlap
  cases h : solve_may_share_memory arr1 arr2 precision_mode.NPY_MAY_SHARE_BOUNDS <;> simp

/-- C10 on a solver that answers "too hard": the undetermined answer is
reported as a possible overlap. -/
theorem arrays_overlap_zero_iff_witness :
    arrays_overlap undecidedSolver () () = 1 :=
  (arrays_overlap_zero_iff undecidedSolver () ()).2.mpr (Or.inr (Or.inl rfl))

/-! ## Partial writes and purity of the broadcaster -/

/--
C15: bounded partial write on failure.  When `M > N` the call returns -1 and
leaves memory as it was.  When `M ≤ N` and `k` is the largest target axis whose
paired source extent is neither 1 nor the target extent, the call returns -1,
every `out_strides` entry at an index `≤ k` is unchanged, and every entry at an
index in `(k, N)` holds the broadcast value of its axis.  The output buffer is
separate from `strides` or the same storage.
-/
theorem broadcast_strides_partial_write (N M : Nat) (shape ss st out : Int) (m : Mem)
    (hshape : ∀ i j : Nat, i < N → j < N → out + (i : Int) ≠ shape + (j : Int))
    (hss : ∀ i j : Nat, i < N → j < M → out + (i : Int) ≠ ss + (j : Int))
    (hst : st = out ∨ ∀ i j : Nat, i < N → j < M → out + (i : Int) ≠ st + (j : Int)) :
    (N < M → broadcast_strides N shape M ss st out m = (-1, m)) ∧
    (M ≤ N → ∀ k : Nat, N - M ≤ k → k < N →
      (m (ss + ((k - (N - M) : Nat) : Int)) ≠ 1 ∧
        m (ss + ((k - (N - M) : Nat) : Int)) ≠ m (shape + (k : Int))) →
      (∀ i : Nat, k < i → i < N → m (ss + ((i - (N - M) : Nat) : Int)) = 1 ∨
        m (ss + ((i - (N - M) : Nat) : Int)) = m (shape + (i : Int))) →
      (broadcast_strides N shape M ss st out m).1 = -1 ∧
      (∀ i : Nat, i ≤ k →
        (broadcast_strides N shape M ss st out m).2 (out + (i : Int)) = m (out + (i : Int))) ∧
      (∀ i : Nat, k < i → i < N →
        (broadcast_strides N shape M ss st out m).2 (out + (i : Int)) =
          if m (ss + ((i - (N - M) : Nat) : Int)) = 1 then 0
          else m (st + ((i - (N - M) : Nat) : Int)))) := by
  constructor
  · intro h
    exact broadcast_strides_too_many_dims N M shape ss st out m h
  · intro hMN k hk1 hk2 hbad hok
    have hst1 : ∀ i j : Nat, i < N → j < M → j + (N - M) < i → out + (i : Int) ≠ st + (j : Int) := by
      intro i j hi hj hlt
      rcases hst with h | h
      · rw [h]; omega
      · exact h i j hi hj
    have ek : ((N - M : Nat) : Int) + ((k - (N - M) : Nat) : Int) = (k : Int) := by omega
    obtain ⟨h1, h2, h3⟩ := broadcast_strides_failure N M (k - (N - M)) shape ss st out m hMN
      hshape hss hst1 (by omega)
      (by
        unfold compatible_axis
        rw [ek]
        rintro (h | h)
        · exact hbad.1 h
        · exact hbad.2 h)
      (by
        intro j hj1 hj2
        have := hok (N - M + j) (by omega) (by omega)
        have e1 : N - M + j - (N - M) = j := by omega
        rw [e1] at this
        unfold compatible_axis
        push_cast at this
        exact this)
    have ek2 : N - M + (k - (N - M)) = k := by omega
    rw [ek2] at h2 h3
    refine ⟨h1, ?_, ?_⟩
    · intro i hi
      exact h2 _ (fun i1 hi1 _ => by omega)
    · intro i hi1 hi2
      exact h3 i hi1 hi2

/-- C15 on target shape `(3,4)` with source shape `(5,1)` and source strides
`(8,16)`: axis 0 is the mismatching one, so the call fails, the output entry of
axis 0 still holds 77 and the entry of axis 1 holds the broadcast stride 0. -/
theorem broadcast_strides_partial_write_witness :
    (broadcast_strides 2 10 2 20 30 40 partialMem).1 = -1 ∧
    (broadcast_strides 2 10 2 20 30 40 partialMem).2 40 = 77 ∧
    (broadcast_strides 2 10 2 20 30 40 partialMem).2 41 = 0 := by
  have h := (broadcast_strides_partial_write 2 2 10 20 30 40 partialMem
    (fun i j hi hj => by omega) (fun i j hi hj => by omega)
    (Or.inr (fun i j hi hj => by omega))).2 (by decide) 0 (by decide) (by decide)
    (by decide) (fun i hi1 hi2 => by interval_cases i; decide)
  exact ⟨h.1, (h.2.1 0 (le_refl 0)).trans (by decide),
    (h.2.2 1 (by decide) (by decide)).trans (by decide)⟩

/--
C16: purity.  Two calls whose target shapes and source shapes hold the same
values, each with an output buffer separate from its inputs, both succeed or
both fail, whatever the prior contents of the output buffers and whatever the
source strides are; and when the source strides hold the same values too, then
on success the two output stride vectors are identical.
-/
theorem broadcast_strides_pure (N M : Nat) (shape1 ss1 st1 out1 : Int) (m1 : Mem)
    (shape2 ss2 st2 out2 : Int) (m2 : Mem)
    (hshape1 : ∀ i j : Nat, i < N → j < N → out1 + (i : Int) ≠ shape1 + (j : Int))
    (hss1 : ∀ i j : Nat, i < N → j < M → out1 + (i : Int) ≠ ss1 + (j : Int))
    (hst1 : ∀ i j : Nat, i < N → j < M → out1 + (i : Int) ≠ st1 + (j : Int))
    (hshape2 : ∀ i j : Nat, i < N → j < N → out2 + (i : Int) ≠ shape2 + (j : Int))
    (hss2 : ∀ i j : Nat, i < N → j < M → out2 + (i : Int) ≠ ss2 + (j : Int))
    (hst2 : ∀ i j : Nat, i < N → j < M → out2 + (i : Int) ≠ st2 + (j : Int))
    (hshape_eq : ∀ i : Nat, i < N → m1 (shape1 + (i : Int)) = m2 (shape2 + (i : Int)))
    (hss_eq : ∀ j : Nat, j < M → m1 (ss1 + (j : Int)) = m2 (ss2 + (j : Int))) :
    (broadcast_strides N shape1 M ss1 st1 out1 m1).1 =
      (broadcast_strides N shape2 M ss2 st2 out2 m2).1 ∧
    ((∀ j : Nat, j < M → m1 (st1 + (j : Int)) = m2 (st2 + (j : Int))) →
      (broadcast_strides N shape1 M ss1 st1 out1 m1).1 = 0 →
      ∀ i : Nat, i < N →
        (broadcast_strides N shape1 M ss1 st1 out1 m1).2 (out1 + (i : Int)) =
          (broadcast_strides N shape2 M ss2 st2 out2 m2).2 (out2 + (i : Int))) := by
  have hs1 := broadcast_strides_status N M shape1 ss1 st1 out1 m1 hshape1 hss1
  have hs2 := broadcast_strides_status N M shape2 ss2 st2 out2 m2 hshape2 hss2
  have hcompat : M ≤ N → ∀ j : Nat, j < M →
      (compatible_axis m1 shape1 ss1 ((N - M : Nat) : Int) j ↔
        compatible_axis m2 shape2 ss2 ((N - M : Nat) : Int) j) := by
    intro hMN j hj
    unfold compatible_axis
    have e : ((N - M : Nat) : Int) + (j : Int) = ((N - M + j : Nat) : Int) := by omega
    rw [e, hss_eq j hj, hshape_eq (N - M + j) (by omega)]
  have hP : (M ≤ N ∧ ∀ j : Nat, j < M → compatible_axis m1 shape1 ss1 ((N - M : Nat) : Int) j) ↔
      (M ≤ N ∧ ∀ j : Nat, j < M → compatible_axis m2 shape2 ss2 ((N - M : Nat) : Int) j) := by
    constructor
    · rintro ⟨h1, h2⟩; exact ⟨h1, fun j hj => (hcompat h1 j hj).mp (h2 j hj)⟩
    · rintro ⟨h1, h2⟩; exact ⟨h1, fun j hj => (hcompat h1 j hj).mpr (h2 j hj)⟩
  constructor
  · by_cases h : M ≤ N ∧ ∀ j : Nat, j < M → compatible_axis m1 shape1 ss1 ((N - M : Nat) : Int) j
    · rw [hs1.1.mpr h, hs2.1.mpr (hP.mp h)]
    · rw [hs1.2.mpr h, hs2.2.mpr (fun h2 => h (hP.mpr h2))]
  · intro hst_eq hsucc i hi
    obtain ⟨hMN, hok1⟩ := hs1.1.mp hsucc
    obtain ⟨_, hok2⟩ := hP.mp ⟨hMN, hok1⟩
    obtain ⟨_, _, v1⟩ := broadcast_strides_success N M shape1 ss1 st1 out1 m1 hMN hshape1 hss1
      (fun i j hi hj _ => hst1 i j hi hj) hok1
    obtain ⟨_, _, v2⟩ := broadcast_strides_success N M shape2 ss2 st2 out2 m2 hMN hshape2 hss2
      (fun i j hi hj _ => hst2 i j hi hj) hok2
    rw [v1 i hi, v2 i hi]
    by_cases hlt : i < N - M
    · rw [if_pos hlt, if_pos hlt]
    · rw [if_neg hlt, if_neg hlt]
      unfold broadcast_value
      rw [hss_eq _ (by omega), hst_eq _ (by omega)]

/-- C16 on the example of the specification, laid out twice at different
addresses with different values in the output buffers: both calls succeed and
agree on both output strides. -/
theorem broadcast_strides_pure_witness :
    (broadcast_strides 2 10 1 20 30 40 exampleMem).1 =
      (broadcast_strides 2 100 1 200 300 400 exampleMem2).1 ∧
    ∀ i : Nat, i < 2 →
      (broadcast_strides 2 10 1 20 30 40 exampleMem).2 (40 + (i : Int)) =
        (broadcast_strides 2 100 1 200 300 400 exampleMem2).2 (400 + (i : Int)) := by
  have h := broadcast_strides_pure 2 1 10 20 30 40 exampleMem 100 200 300 400 exampleMem2
    (fun i j hi hj => by omega) (fun i j hi hj => by omega) (fun i j hi hj => by omega)
    (fun i j hi hj => by omega) (fun i j hi hj => by omega) (fun i j hi hj => by omega)
    (fun i hi => by interval_cases i <;> decide) (fun j hj => by interval_cases j; decide)
  exact ⟨h.1, h.2 (fun j hj => by interval_cases j; decide) (by decide)⟩

/-! ## Composition of broadcasts -/

/--
C17: broadcasts compose.  Let the source `(S, st)` of `L` axes be broadcast
onto the target `T` of `M` axes with output in `out1`, and let `(T, out1)` then
be broadcast onto the target `U` of `N` axes with output in `out2`, both calls
succeeding.  Then broadcasting `(S, st)` directly onto `U` succeeds and gives
the same `N` output strides; and broadcasting `(T, out1)` onto `T` itself
succeeds and gives back the strides in `out1` unchanged, whether into a
separate buffer or in place.
-/
theorem broadcast_strides_compose (L M N : Nat) (S st T U out1 out2 : Int) (m : Mem)
    (h1T : ∀ i j : Nat, i < M → j < M → out1 + (i : Int) ≠ T + (j : Int))
    (h1S : ∀ i j : Nat, i < M → j < L → out1 + (i : Int) ≠ S + (j : Int))
    (h1st : ∀ i j : Nat, i < M → j < L → out1 + (i : Int) ≠ st + (j : Int))
    (h1U : ∀ i j : Nat, i < M → j < N → out1 + (i : Int) ≠ U + (j : Int))
    (h2U : ∀ i j : Nat, i < N → j < N → out2 + (i : Int) ≠ U + (j : Int))
    (h2T : ∀ i j : Nat, i < N → j < M → out2 + (i : Int) ≠ T + (j : Int))
    (h2o : ∀ i j : Nat, i < N → j < M → out2 + (i : Int) ≠ out1 + (j : Int))
    (h2S : ∀ i j : Nat, i < N → j < L → out2 + (i : Int) ≠ S + (j : Int))
    (h2st : ∀ i j : Nat, i < N → j < L → out2 + (i : Int) ≠ st + (j : Int))
    (hs1 : (broadcast_strides M T L S st out1 m).1 = 0)
    (hs2 : (broadcast_strides N U M T out1 out2 (broadcast_strides M T L S st out1 m).2).1 = 0) :
    ((broadcast_strides N U L S st out2 m).1 = 0 ∧
      ∀ i : Nat, i < N → (broadcast_strides N U L S st out2 m).2 (out2 + (i : Int)) =
        (broadcast_strides N U M T out1 out2
          (broadcast_strides M T L S st out1 m).2).2 (out2 + (i : Int))) ∧
    (∀ out3 : Int, (∀ i j : Nat, i < M → j < M → out3 + (i : Int) ≠ T + (j : Int)) →
      (out3 = out1 ∨ ∀ i j : Nat, i < M → j < M → out3 + (i : Int) ≠ out1 + (j : Int)) →
      (broadcast_strides M T M T out1 out3 (broadcast_strides M T L S st out1 m).2).1 = 0 ∧
      ∀ i : Nat, i < M →
        (broadcast_strides M T M T out1 out3
          (broadcast_strides M T L S st out1 m).2).2 (out3 + (i : Int)) =
            (broadcast_strides M T L S st out1 m).2 (out1 + (i : Int))) := by
  -- the first call
  obtain ⟨hLM, hok1⟩ := (broadcast_strides_status M L T S st out1 m h1T h1S).1.mp hs1
  obtain ⟨_, f1, v1⟩ := broadcast_strides_success M L T S st out1 m hLM h1T h1S
    (fun i j hi hj _ => h1st i j hi hj) hok1
  generalize hm1 : (broadcast_strides M T L S st out1 m).2 = m1 at hs2 f1 v1 ⊢
  have eT : ∀ j : Nat, j < M → m1 (T + (j : Int)) = m (T + (j : Int)) :=
    fun j hj => f1 _ (fun i hi h => h1T i j hi hj h.symm)
  have eU : ∀ j : Nat, j < N → m1 (U + (j : Int)) = m (U + (j : Int)) :=
    fun j hj => f1 _ (fun i hi h => h1U i j hi hj h.symm)
  -- what compatibility of the first call says, axis by axis
  have c1 : ∀ j : Nat, j < L → m (S + (j : Int)) = 1 ∨
      m (S + (j : Int)) = m (T + ((M - L + j : Nat) : Int)) := by
    intro j hj
    have := hok1 j hj
    unfold compatible_axis at this
    have e : ((M - L : Nat) : Int) + (j : Int) = ((M - L + j : Nat) : Int) := by omega
    rw [e] at this
    exact this
  -- a unit extent of `T` forces a zero stride in `out1`
  have z1 : ∀ i : Nat, i < M → m (T + (i : Int)) = 1 → m1 (out1 + (i : Int)) = 0 := by
    intro i hi hT
    rw [v1 i hi]
    by_cases hlt : i < M - L
    · rw [if_pos hlt]
    · rw [if_neg hlt]
      unfold broadcast_value
      have e : M - L + (i - (M - L)) = i := by omega
      have := c1 (i - (M - L)) (by omega)
      rw [e, hT] at this
      rw [if_pos (by tauto)]
  constructor
  · -- the second call
    obtain ⟨hMN, hok2⟩ := (broadcast_strides_status N M U T out1 out2 m1 h2U h2T).1.mp hs2
    obtain ⟨_, _, v2⟩ := broadcast_strides_success N M U T out1 out2 m1 hMN h2U h2T
      (fun i j hi hj _ => h2o i j hi hj) hok2
    have c2 : ∀ j : Nat, j < M → m (T + (j : Int)) = 1 ∨
        m (T + (j : Int)) = m (U + ((N - M + j : Nat) : Int)) := by
      intro j hj
      have := hok2 j hj
      unfold compatible_axis at this
      have e : ((N - M : Nat) : Int) + (j : Int) = ((N - M + j : Nat) : Int) := by omega
      rw [e, eT j hj, eU _ (by omega)] at this
      exact this
    -- the direct call
    have hLN : L ≤ N := le_trans hLM hMN
    have hok3 : ∀ j : Nat, j < L → compatible_axis m U S ((N - L : Nat) : Int) j := by
      intro j hj
      unfold compatible_axis
      have e : ((N - L : Nat) : Int) + (j : Int) = ((N - M + (M - L + j) : Nat) : Int) := by omega
      rw [e]
      rcases c1 j hj with h | h
      · exact Or.inl h
      · rcases c2 (M - L + j) (by omega) with h3 | h3
        · left; rw [h, h3]
        · right; rw [h, h3]
    obtain ⟨s3, _, v3⟩ := broadcast_strides_success N L U S st out2 m hLN h2U h2S
      (fun i j hi hj _ => h2st i j hi hj) hok3
    refine ⟨s3, ?_⟩
    intro i hi
    rw [v3 i hi, v2 i hi]
    by_cases hlt : i < N - M
    · rw [if_pos hlt, if_pos (by omega)]
    · rw [if_neg hlt]
      have hiM : i - (N - M) < M := by omega
      unfold broadcast_value
      rw [eT _ hiM]
      by_cases hT : m (T + ((i - (N - M) : Nat) : Int)) = 1
      · rw [if_pos hT]
        by_cases hlt2 : i < N - L
        · rw [if_pos hlt2]
        · rw [if_neg hlt2]
          have e : M - L + (i - (N - L)) = i - (N - M) := by omega
          have := c1 (i - (N - L)) (by omega)
          rw [e, hT] at this
          rw [if_pos (by tauto)]
      · rw [if_neg hT, v1 _ hiM]
        by_cases hlt2 : i < N - L
        · rw [if_pos hlt2, if_pos (by omega)]
        · rw [if_neg hlt2, if_neg (show ¬ i - (N - M) < M - L by omega)]
          have e : i - (N - M) - (M - L) = i - (N - L) := by omega
          unfold broadcast_value
          rw [e]
  · -- broadcasting the output against its own target shape
    intro out3 h3T h3o
    have hok4 : ∀ j : Nat, j < M → compatible_axis m1 T T ((M - M : Nat) : Int) j := by
      intro j hj
      unfold compatible_axis
      right
      have e : ((M - M : Nat) : Int) + (j : Int) = (j : Int) := by omega
      rw [e]
    obtain ⟨s4, _, v4⟩ := broadcast_strides_success M M T T out1 out3 m1 (le_refl M) h3T h3T
      (fun i j hi hj hlt => by
        rcases h3o with h | h
        · rw [h]; omega
        · exact h i j hi hj)
      hok4
    refine ⟨s4, ?_⟩
    intro i hi
    rw [v4 i hi, if_neg (by omega)]
    unfold broadcast_value
    have e : i - (M - M) = i := by omega
    rw [e, eT i hi]
    by_cases hT : m (T + (i : Int)) = 1
    · rw [if_pos hT, z1 i hi hT]
    · rw [if_neg hT]

/-- C17 on source shape `(3,)` with strides `(4,)`, first target `(1,3)` and
second target `(5,2,3)`: the direct broadcast onto `(5,2,3)` succeeds and, like
the two broadcasts in a row, gives the strides `(0,0,4)`. -/
theorem broadcast_strides_compose_witness :
    (broadcast_strides 3 40 1 10 20 60 composeMem).1 = 0 ∧
    (∀ i : Nat, i < 3 → (broadcast_strides 3 40 1 10 20 60 composeMem).2 (60 + (i : Int)) =
      (broadcast_strides 3 40 2 30 50 60
        (broadcast_strides 2 30 1 10 20 50 composeMem).2).2 (60 + (i : Int))) ∧
    Mem.get (broadcast_strides 3 40 1 10 20 60 composeMem).2 60 3 = [0, 0, 4] := by
  have h := (broadcast_strides_compose 1 2 3 10 20 30 40 50 60 composeMem
    (fun i j hi hj => by omega) (fun i j hi hj => by omega) (fun i j hi hj => by omega)
    (fun i j hi hj => by omega) (fun i j hi hj => by omega) (fun i j hi hj => by omega)
    (fun i j hi hj => by omega) (fun i j hi hj => by omega) (fun i j hi hj => by omega)
    (by decide) (by decide)).1
  exact ⟨h.1, h.2, by decide⟩

/-! ## Index safety of the broadcaster -/

theorem broadcast_loop_traced_succ (shape ss st out s : Int) (k : Nat) (m : Mem) :
    broadcast_loop_traced shape ss st out s (k + 1) m =
      if m (ss + (k : Int)) = 1 then
        ((broadcast_loop_traced shape ss st out s k (Mem.store m (out + (s + (k : Int))) 0)).1,
          (broadcast_loop_traced shape ss st out s k (Mem.store m (out + (s + (k : Int))) 0)).2.1,
          Access.read_strides_shape (k : Int) :: Access.write_out_strides (s + (k : Int)) ::
            (broadcast_loop_traced shape ss st out s k
              (Mem.store m (out + (s + (k : Int))) 0)).2.2)
      else if m (ss + (k : Int)) ≠ m (shape + (s + (k : Int))) then
        (false, m, [Access.read_strides_shape (k : Int), Access.read_shape (s + (k : Int))])
      else
        ((broadcast_loop_traced shape ss st out s k
            (Mem.store m (out + (s + (k : Int))) (m (st + (k : Int))))).1,
          (broadcast_loop_traced shape ss st out s k
            (Mem.store m (out + (s + (k : Int))) (m (st + (k : Int))))).2.1,
          Access.read_strides_shape (k : Int) :: Access.read_shape (s + (k : Int)) ::
            Access.read_strides (k : Int) :: Access.write_out_strides (s + (k : Int)) ::
            (broadcast_loop_traced shape ss st out s k
              (Mem.store m (out + (s + (k : Int))) (m (st + (k : Int))))).2.2) := by
  simp only [broadcast_loop_traced, add_sub_cancel_left]

/-- Forgetting the recorded accesses gives the first loop back. -/
theorem broadcast_loop_traced_erase (shape ss st out s : Int) (k : Nat) : ∀ m : Mem,
    ((broadcast_loop_traced shape ss st out s k m).1,
      (broadcast_loop_traced shape ss st out s k m).2.1) =
        broadcast_loop shape ss st out s k m := by
  induction k with
  | zero => intro m; rfl
  | succ k ih =>
    intro m
    rw [broadcast_loop_traced_succ, broadcast_loop_succ]
    by_cases h1 : m (ss + (k : Int)) = 1
    · rw [if_pos h1, if_pos h1]
      exact ih _
    · rw [if_neg h1, if_neg h1]
      by_cases h2 : m (ss + (k : Int)) ≠ m (shape + (s + (k : Int)))
      · rw [if_pos h2, if_pos h2]
      · rw [if_neg h2, if_neg h2]
        exact ih _

/-- Forgetting the recorded accesses gives the second loop back. -/
theorem new_dims_loop_traced_erase (out : Int) (n : Nat) (m : Mem) :
    (new_dims_loop_traced out n m).1 = new_dims_loop out n m := by
  induction n with
  | zero => rfl
  | succ n ih =>
    show Mem.store (new_dims_loop_traced out n m).1 (out + (n : Int)) 0
      = Mem.store (new_dims_loop out n m) (out + (n : Int)) 0
    rw [ih]

/-- Every access of the first loop is inside its array. -/
theorem broadcast_loop_traced_in_bounds (N M : Nat) (hMN : M ≤ N) (shape ss st out : Int)
    (k : Nat) : ∀ m : Mem, k ≤ M →
    ∀ a : Access, a ∈ (broadcast_loop_traced shape ss st out ((N - M : Nat) : Int) k m).2.2 →
      Access.in_bounds N M a := by
  induction k with
  | zero =>
    intro m _ a ha
    exact absurd ha (List.not_mem_nil a)
  | succ k ih =>
    intro m hk a ha
    have b1 : Access.in_bounds N M (Access.read_strides_shape (k : Int)) := by
      show 0 ≤ (k : Int) ∧ (k : Int) < (M : Int)
      omega
    have b2 : Access.in_bounds N M (Access.read_shape (((N - M : Nat) : Int) + (k : Int))) := by
      show 0 ≤ ((N - M : Nat) : Int) + (k : Int) ∧ ((N - M : Nat) : Int) + (k : Int) < (N : Int)
      omega
    have b3 : Access.in_bounds N M (Access.read_strides (k : Int)) := by
      show 0 ≤ (k : Int) ∧ (k : Int) < (M : Int)
      omega
    have b4 : Access.in_bounds N M
        (Access.write_out_strides (((N - M : Nat) : Int) + (k : Int))) := by
      show 0 ≤ ((N - M : Nat) : Int) + (k : Int) ∧ ((N - M : Nat) : Int) + (k : Int) < (N : Int)
      omega
    rw [broadcast_loop_traced_succ] at ha
    by_cases h1 : m (ss + (k : Int)) = 1
    · rw [if_pos h1] at ha
      simp only [List.mem_cons] at ha
      rcases ha with h | h | h
      · rw [h]; exact b1
      · rw [h]; exact b4
      · exact ih _ (by omega) a h
    · rw [if_neg h1] at ha
      by_cases h2 : m (ss + (k : Int)) ≠ m (shape + (((N - M : Nat) : Int) + (k : Int)))
      · rw [if_pos h2] at ha
        simp only [List.mem_cons, List.not_mem_nil, or_false] at ha
        rcases ha with h | h
        · rw [h]; exact b1
        · rw [h]; exact b2
      · rw [if_neg h2] at ha
        simp only [List.mem_cons] at ha
        rcases ha with h | h | h | h | h
        · rw [h]; exact b1
        · rw [h]; exact b2
        · rw [h]; exact b3
        · rw [h]; exact b4
        · exact ih _ (by omega) a h

/-- When the first loop runs to its end it has written the output entries
`idim_start + k - 1` down to `idim_start`, each once. -/
theorem broadcast_loop_traced_written (shape ss st out s : Int) (k : Nat) : ∀ m : Mem,
    (broadcast_loop_traced shape ss st out s k m).1 = true →
    written (broadcast_loop_traced shape ss st out s k m).2.2 =
      (List.range k).reverse.map (fun j : Nat => s + (j : Int)) := by
  induction k with
  | zero => intro m _; rfl
  | succ k ih =>
    intro m hm
    rw [broadcast_loop_traced_succ] at hm ⊢
    rw [List.range_succ, List.reverse_append, List.reverse_singleton, List.singleton_append,
      List.map_cons]
    by_cases h1 : m (ss + (k : Int)) = 1
    · rw [if_pos h1] at hm ⊢
      show (s + (k : Int)) :: written _ = _
      rw [ih _ hm]
    · rw [if_neg h1] at hm ⊢
      by_cases h2 : m (ss + (k : Int)) ≠ m (shape + (s + (k : Int)))
      · rw [if_pos h2] at hm
        exact absurd hm (by simp)
      · rw [if_neg h2] at hm ⊢
        show (s + (k : Int)) :: written _ = _
        rw [ih _ hm]

/-- The second loop writes the output entries `0` up to `n - 1`, each once, and
makes no other access. -/
theorem new_dims_loop_traced_trace (out : Int) (n : Nat) (m : Mem) :
    (new_dims_loop_traced out n m).2 =
      (List.range n).map (fun j : Nat => Access.write_out_strides (j : Int)) := by
  induction n with
  | zero => rfl
  | succ n ih =>
    show (new_dims_loop_traced out n m).2 ++ [Access.write_out_strides (n : Int)] = _
    rw [ih, List.range_succ, List.map_append]
    rfl

theorem written_append (t1 t2 : List Access) : written (t1 ++ t2) = written t1 ++ written t2 := by
  unfold written
  exact List.filterMap_append t1 t2 Access.written_index

theorem written_map_write (l : List Nat) :
    written (l.map (fun j : Nat => Access.write_out_strides (j : Int))) = l.map (fun j : Nat => (j : Int)) := by
  induction l with
  | nil => rfl
  | cons a l ih =>
    show (a : Int) :: written (l.map (fun j : Nat => Access.write_out_strides (j : Int))) = _
    rw [ih]
    rfl

/-- The traced call unfolded for `M ≤ N`. -/
theorem broadcast_strides_traced_unfold (N M : Nat) (shape ss st out : Int) (m : Mem)
    (h : M ≤ N) :
    broadcast_strides_traced N shape M ss st out m =
      match broadcast_loop_traced shape ss st out ((N - M : Nat) : Int) M m with
      | (false, m1, t) => (-1, m1, t)
      | (true, m1, t) =>
        (0, (new_dims_loop_traced out (N - M) m1).1, t ++ (new_dims_loop_traced out (N - M) m1).2) := by
  unfold broadcast_strides_traced
  have h1 : ¬ (((N - M : Nat) : Int) < 0) := by omega
  have h2 : (N : Int) - (M : Int) = ((N - M : Nat) : Int) := by omega
  have h3 : ((N : Int) - ((N - M : Nat) : Int)).toNat = M := by omega
  simp only [h2, h3, Int.toNat_ofNat]
  rw [if_neg h1]

/-- The writes of a successful call, `N - 1` down to `N - M` and then `0` up to
`N - M - 1`, are the indices below `N` in another order. -/
theorem written_order_perm (N M : Nat) (hMN : M ≤ N) :
    List.Perm
      ((List.range M).reverse.map (fun j : Nat => ((N - M : Nat) : Int) + (j : Int)) ++
        (List.range (N - M)).map (fun j : Nat => (j : Int)))
      ((List.range N).map (fun j : Nat => (j : Int))) := by
  have hN : N = (N - M) + M := by omega
  have e1 : (List.range N).map (fun j : Nat => (j : Int)) =
      (List.range (N - M)).map (fun j : Nat => (j : Int)) ++
        (List.range M).map (fun j : Nat => ((N - M : Nat) : Int) + (j : Int)) := by
    conv_lhs => rw [hN, List.range_add, List.map_append, List.map_map]
    rfl
  rw [e1]
  exact (List.perm_append_comm).trans
    (List.Perm.append (List.Perm.refl _) ((List.reverse_perm _).map _))

/--
C12: index safety and output extent of `broadcast_strides`, for a target of
`N` axes, a source of `M` axes and an output buffer of `N` entries.  The call
with its accesses recorded computes what `broadcast_strides` computes; every
read of `strides_shape` and `strides` uses an index in `[0, M)`; every read of
`shape` and every write of `out_strides` uses an index in `[0, N)`; and on
success the indices written are exactly `0, ..., N - 1`, each once.
-/
theorem broadcast_strides_index_safety (N M : Nat) (shape ss st out : Int) (m : Mem) :
    ((broadcast_strides_traced N shape M ss st out m).1,
      (broadcast_strides_traced N shape M ss st out m).2.1) =
        broadcast_strides N shape M ss st out m ∧
    (∀ a : Access, a ∈ (broadcast_strides_traced N shape M ss st out m).2.2 →
      Access.in_bounds N M a) ∧
    ((broadcast_strides_traced N shape M ss st out m).1 = 0 →
      List.Perm (written (broadcast_strides_traced N shape M ss st out m).2.2)
        ((List.range N).map (fun i : Nat => (i : Int)))) := by
  by_cases hMN : M ≤ N
  · rw [broadcast_strides_traced_unfold N M shape ss st out m hMN,
      broadcast_strides_unfold N M shape ss st out m hMN]
    have herase := broadcast_loop_traced_erase shape ss st out ((N - M : Nat) : Int) M m
    have hbounds := broadcast_loop_traced_in_bounds N M hMN shape ss st out M m (le_refl M)
    have hwritten := broadcast_loop_traced_written shape ss st out ((N - M : Nat) : Int) M m
    rcases hloop : broadcast_loop_traced shape ss st out ((N - M : Nat) : Int) M m
      with ⟨ok, m1, t⟩
    rw [hloop] at herase hbounds hwritten
    rw [← herase]
    cases ok with
    | false =>
      refine ⟨rfl, hbounds, ?_⟩
      intro h
      exact absurd (show (-1 : Int) = 0 from h) (by decide)
    | true =>
      refine ⟨?_, ?_, ?_⟩
      · show ((0 : Int), (new_dims_loop_traced out (N - M) m1).1)
          = (0, new_dims_loop out (N - M) m1)
        rw [new_dims_loop_traced_erase]
      · intro a ha
        have ha1 : a ∈ t ++ (new_dims_loop_traced out (N - M) m1).2 := ha
        rw [List.mem_append, new_dims_loop_traced_trace] at ha1
        rcases ha1 with h | h
        · exact hbounds a h
        · obtain ⟨j, hj, hja⟩ := List.mem_map.mp h
          rw [List.mem_range] at hj
          rw [← hja]
          show 0 ≤ (j : Int) ∧ (j : Int) < (N : Int)
          omega
      · intro _
        show List.Perm (written (t ++ (new_dims_loop_traced out (N - M) m1).2)) _
        rw [written_append, new_dims_loop_traced_trace, written_map_write, hwritten rfl]
        exact written_order_perm N M hMN
  · have h1 : ((N : Int) - (M : Int)) < 0 := by omega
    have e1 : broadcast_strides_traced N shape M ss st out m = (-1, m, []) := by
      unfold broadcast_strides_traced
      simp only [h1, if_true]
    rw [e1, broadcast_strides_too_many_dims N M shape ss st out m (by omega)]
    refine ⟨rfl, ?_, ?_⟩
    · intro a ha
      exact absurd ha (List.not_mem_nil a)
    · intro h
      exact absurd (show (-1 : Int) = 0 from h) (by decide)

/-- C12 on the example of the specification: the call reads `strides_shape[0]`,
`shape[1]` and `strides[0]`, writes `out_strides[1]` and then `out_strides[0]`,
and these two writes are the indices 0 and 1. -/
theorem broadcast_strides_index_safety_witness :
    (broadcast_strides_traced 2 10 1 20 30 40 exampleMem).2.2 =
      [Access.read_strides_shape 0, Access.read_shape 1, Access.read_strides 0,
        Access.write_out_strides 1, Access.write_out_strides 0] ∧
    List.Perm (written (broadcast_strides_traced 2 10 1 20 30 40 exampleMem).2.2) [0, 1] :=
  ⟨by decide, (broadcast_strides_index_safety 2 1 10 20 30 40 exampleMem).2.2 (by decide)⟩

/-! ## Completeness of the alignment check -/

theorem two_pow_dvd_natCast_iff (k data : Nat) :
    ((2 : Int) ^ k) ∣ (data : Int) ↔ data % 2 ^ k = 0 := by
  constructor
  · intro h
    have h1 := Int.emod_eq_zero_of_dvd h
    exact_mod_cast h1
  · intro h
    have h1 : (((data % 2 ^ k : Nat)) : Int) = 0 := by rw [h]; rfl
    push_cast at h1
    exact Int.dvd_of_emod_eq_zero h1

theorem offset_zero_index (m : Mem) (p : Int) (n : Nat) : offset m p (fun _ => 0) n = 0 := by
  induction n with
  | zero => rfl
  | succ n ih =>
    show offset m p (fun _ => 0) n + 0 * m (p + (n : Int)) = 0
    rw [ih]; simp

theorem offset_unit_index (m : Mem) (p : Int) (j n : Nat) :
    offset m p (fun i => if i = j then 1 else 0) n = if j < n then m (p + (j : Int)) else 0 := by
  induction n with
  | zero => rfl
  | succ n ih =>
    show offset m p (fun i => if i = j then 1 else 0) n
      + (if n = j then 1 else 0) * m (p + (n : Int)) = _
    rw [ih]
    by_cases h1 : n = j
    · subst h1
      simp
    · by_cases h2 : j < n
      · rw [if_pos h2, if_neg h1, if_pos (by omega)]; simp
      · rw [if_neg h2, if_neg h1, if_neg (by omega)]; simp

/-- In the relaxed-strides build the loop reads the extents and, of the
strides, only those of the axes of extent greater than 1. -/
theorem align_loop_congr (w : Nat) (shape strides : Int) (m m1 : Mem) (n : Nat) :
    ∀ (i : Int) (acc : Nat),
    (∀ j : Nat, j < n → m1 (shape + (i + (j : Int))) = m (shape + (i + (j : Int)))) →
    (∀ j : Nat, j < n → 1 < m (shape + (i + (j : Int))) →
      m1 (strides + (i + (j : Int))) = m (strides + (i + (j : Int)))) →
    align_loop w true shape strides m1 n i acc = align_loop w true shape strides m n i acc := by
  induction n with
  | zero => intro i acc _ _; rfl
  | succ n ih =>
    intro i acc hsh hstr
    have h0 : m1 (shape + i) = m (shape + i) := by simpa using hsh 0 (by omega)
    have hrec : ∀ acc1 : Nat, align_loop w true shape strides m1 n (i + 1) acc1
        = align_loop w true shape strides m n (i + 1) acc1 := by
      intro acc1
      apply ih
      · intro j hj
        have := hsh (j + 1) (by omega)
        have e : i + 1 + (j : Int) = i + ((j + 1 : Nat) : Int) := by omega
        rw [e]; exact this
      · intro j hj hgt
        have e : i + 1 + (j : Int) = i + ((j + 1 : Nat) : Int) := by omega
        rw [e] at hgt ⊢
        exact hstr (j + 1) (by omega) hgt
    rw [align_loop_succ, align_loop_succ, h0]
    simp only [if_true]
    by_cases h1 : m (shape + i) > 1
    · have h2 : m1 (strides + i) = m (strides + i) := by
        simpa using hstr 0 (by omega) (by simpa using h1)
      rw [if_pos h1, if_pos h1, h2, hrec]
    · rw [if_neg h1, if_neg h1]
      by_cases h3 : m (shape + i) = 0
      · rw [if_pos h3, if_pos h3]
      · rw [if_neg h3, if_neg h3, hrec]

/-- In the relaxed-strides build, on a shape without an axis of extent 0, the
loop runs to its end and leaves the accumulated word of the specification. -/
theorem align_loop_eq_accum_or (w : Nat) (shape strides : Int) (m : Mem) (data : Nat)
    (n : Nat) (hnz : ∀ i : Nat, i < n → m (shape + (i : Int)) ≠ 0) :
    align_loop w true shape strides m n 0 (data % 2 ^ w) =
      some (accum_or w m shape strides data n) := by
  -- the loop from any start, one more axis at its end
  have snoc : ∀ (n : Nat) (i : Int) (acc r : Nat),
      align_loop w true shape strides m n i acc = some r →
      m (shape + (i + (n : Int))) ≠ 0 →
      align_loop w true shape strides m (n + 1) i acc =
        some (if 1 < m (shape + (i + (n : Int))) then
          r ||| to_uintp w (m (strides + (i + (n : Int)))) else r) := by
    intro n
    induction n with
    | zero =>
      intro i acc r h hne
      have hr : acc = r := by simpa [align_loop] using h
      rw [align_loop_succ]
      simp only [if_true, Nat.cast_zero, add_zero] at hne ⊢
      rw [hr]
      by_cases h1 : m (shape + i) > 1
      · rw [if_pos h1, if_pos h1]; rfl
      · rw [if_neg h1, if_neg hne, if_neg h1]; rfl
    | succ n ih =>
      intro i acc r h hne
      have e : i + ((n + 1 : Nat) : Int) = i + 1 + (n : Int) := by omega
      rw [e] at hne ⊢
      rw [align_loop_succ] at h
      rw [align_loop_succ]
      simp only [if_true] at h ⊢
      by_cases h1 : m (shape + i) > 1
      · rw [if_pos h1] at h ⊢
        exact ih (i + 1) _ r h hne
      · rw [if_neg h1] at h ⊢
        by_cases h3 : m (shape + i) = 0
        · rw [if_pos h3] at h
          exact absurd h (by simp)
        · rw [if_neg h3] at h ⊢
          exact ih (i + 1) _ r h hne
  induction n with
  | zero => rfl
  | succ n ih =>
    have h1 := ih (fun i hi => hnz i (by omega))
    have h2 := snoc n 0 (data % 2 ^ w) _ h1 (by rw [zero_add]; exact hnz n (by omega))
    rw [h2, zero_add]
    rfl

/--
C13: completeness of `raw_array_is_aligned` in the relaxed-strides build.  For
an alignment `2 ^ k` with `1 ≤ k` below the word range and a shape with
non-negative extents, if every element address
`data + sum_i idx i * strides[i]` with `0 ≤ idx i < shape[i]` is divisible by
the alignment then the call returns true.  And for every alignment, the result
does not depend on the stride of an axis whose extent is 1: storing any other
value there leaves the result as it is.
-/
theorem raw_array_is_aligned_complete (w : Nat) (N : Nat) (shape : Int) (data : Nat)
    (strides : Int) (k : Nat) (m : Mem) (hk1 : 1 ≤ k) (hkw : k < w)
    (hnn : ∀ i : Nat, i < N → 0 ≤ m (shape + (i : Int)))
    (hall : ∀ idx : Nat → Int,
      (∀ i : Nat, i < N → 0 ≤ idx i ∧ idx i < m (shape + (i : Int))) →
      ((2 : Int) ^ k) ∣ element_address m data strides N idx) :
    raw_array_is_aligned w true N shape data strides ((2 : Int) ^ k) m = 1 ∧
    ∀ (alignment : Int) (i : Nat) (v : Int), i < N → m (shape + (i : Int)) = 1 →
      (∀ j : Nat, j < N → strides + (i : Int) ≠ shape + (j : Int)) →
      raw_array_is_aligned w true N shape data strides alignment
          (Mem.store m (strides + (i : Int)) v) =
        raw_array_is_aligned w true N shape data strides alignment m := by
  constructor
  · rw [raw_array_is_aligned_two_pow w true N shape data strides k m hk1 hkw]
    cases hloop : align_loop w true shape strides m N 0 (data % 2 ^ w) with
    | none => rfl
    | some r =>
      -- no axis has extent 0, so every extent is at least 1
      have hpos : ∀ i : Nat, i < N → 1 ≤ m (shape + (i : Int)) := by
        intro i hi
        have h0 : m (shape + (i : Int)) ≠ 0 := by
          intro h
          have hn := (align_loop_none_iff w true shape strides m N 0 (data % 2 ^ w)).mpr
            ⟨rfl, i, hi, by rw [zero_add]; exact h⟩
          rw [hloop] at hn
          exact absurd hn (by simp)
        have := hnn i hi
        omega
      have hzero : ∀ i : Nat, i < N →
          0 ≤ (fun _ : Nat => (0 : Int)) i ∧ (fun _ : Nat => (0 : Int)) i < m (shape + (i : Int)) := by
        intro i hi
        show (0 : Int) ≤ 0 ∧ (0 : Int) < m (shape + (i : Int))
        have := hpos i hi
        omega
      have hr : r % 2 ^ k = 0 := by
        rw [align_loop_some_iff w true shape strides m k N 0 _ r hloop]
        constructor
        · rw [mod_word_mod_two_pow w k (le_of_lt hkw)]
          have h := hall (fun _ => 0) hzero
          unfold element_address at h
          rw [offset_zero_index, add_zero] at h
          exact (two_pow_dvd_natCast_iff k data).mp h
        · intro j hj hgt
          rw [zero_add] at hgt ⊢
          have hgt1 : 1 < m (shape + (j : Int)) := by
            rcases hgt with h | h
            · exact absurd h (by decide)
            · exact h
          have h0 := hall (fun _ => 0) hzero
          have h1 := hall (fun i => if i = j then 1 else 0) (by
            intro i hi
            show 0 ≤ (if i = j then (1 : Int) else 0) ∧
              (if i = j then (1 : Int) else 0) < m (shape + (i : Int))
            by_cases hij : i = j
            · rw [if_pos hij, hij]; exact ⟨by decide, hgt1⟩
            · rw [if_neg hij]; exact ⟨le_refl 0, by have := hpos i hi; omega⟩)
          unfold element_address at h0 h1
          rw [offset_zero_index, add_zero] at h0
          rw [offset_unit_index, if_pos hj] at h1
          exact (to_uintp_mod_eq_zero_iff w k (le_of_lt hkw) _).mpr
            ((dvd_add_right h0).mp h1)
      exact if_pos hr
  · intro alignment i v hi h1 hsep
    have hloop : align_loop w true shape strides (Mem.store m (strides + (i : Int)) v)
        N 0 (data % 2 ^ w) = align_loop w true shape strides m N 0 (data % 2 ^ w) := by
      apply align_loop_congr
      · intro j hj
        rw [zero_add]
        exact Mem.store_other _ _ _ _ (fun h => hsep j hj h.symm)
      · intro j hj hgt
        rw [zero_add] at hgt ⊢
        apply Mem.store_other
        intro h
        have hji : j = i := by omega
        rw [hji, h1] at hgt
        exact absurd hgt (by decide)
    unfold raw_array_is_aligned
    rw [Int.toNat_ofNat, hloop]

/-- C13 on an array of shape `(1,2)` with strides `(5,8)` at base address 8 and
alignment 8: both elements, at addresses 8 and 16, are aligned, and the call
returns true although the stride 5 of the axis of extent 1 is odd. -/
theorem raw_array_is_aligned_complete_witness :
    raw_array_is_aligned 64 true 2 10 8 20 ((2 : Int) ^ 3) unitAxisMem = 1 :=
  (raw_array_is_aligned_complete 64 2 10 8 20 3 unitAxisMem (by decide) (by decide)
    (fun i hi => by interval_cases i <;> decide)
    (fun idx hidx => by
      have h0 := hidx 0 (by decide)
      have h1 := hidx 1 (by decide)
      have e0 : unitAxisMem (10 + ((0 : Nat) : Int)) = 1 := by decide
      have e1 : unitAxisMem (20 + ((1 : Nat) : Int)) = 8 := by decide
      rw [e0] at h0
      have hz : idx 0 = 0 := by omega
      show ((2 : Int) ^ 3) ∣ ((8 : Nat) : Int) + (0 + idx 0 * unitAxisMem (20 + ((0 : Nat) : Int))
        + idx 1 * unitAxisMem (20 + ((1 : Nat) : Int)))
      rw [hz, e1]
      exact ⟨1 + idx 1, by ring⟩)).1

/--
C14: in the relaxed-strides build, for an alignment `2 ^ k` with `1 ≤ k` below
the word range and a shape with no axis of extent 0, `raw_array_is_aligned`
returns true if and only if `accum % alignment = 0`, where `accum` is the
bitwise OR of the base address, as an unsigned word, with the unsigned word of
every stride whose extent is greater than 1, and returns false otherwise;
equivalently, if and only if the base address and each such stride are
divisible by the alignment.
-/
theorem raw_array_is_aligned_iff (w : Nat) (N : Nat) (shape : Int) (data : Nat)
    (strides : Int) (k : Nat) (m : Mem) (hk1 : 1 ≤ k) (hkw : k < w)
    (hnz : ∀ i : Nat, i < N → m (shape + (i : Int)) ≠ 0) :
    (raw_array_is_aligned w true N shape data strides ((2 : Int) ^ k) m = 1 ↔
      accum_or w m shape strides data N % 2 ^ k = 0) ∧
    (raw_array_is_aligned w true N shape data strides ((2 : Int) ^ k) m = 0 ↔
      accum_or w m shape strides data N % 2 ^ k ≠ 0) ∧
    (accum_or w m shape strides data N % 2 ^ k = 0 ↔
      (((2 : Int) ^ k) ∣ (data : Int) ∧
        ∀ i : Nat, i < N → 1 < m (shape + (i : Int)) →
          ((2 : Int) ^ k) ∣ m (strides + (i : Int)))) := by
  have hloop := align_loop_eq_accum_or w shape strides m data N hnz
  have hraw : raw_array_is_aligned w true N shape data strides ((2 : Int) ^ k) m =
      if accum_or w m shape strides data N % 2 ^ k = 0 then 1 else 0 := by
    rw [raw_array_is_aligned_two_pow w true N shape data strides k m hk1 hkw, hloop]
  refine ⟨?_, ?_, ?_⟩
  · rw [hraw]
    by_cases h : accum_or w m shape strides data N % 2 ^ k = 0
    · rw [if_pos h]; exact ⟨fun _ => h, fun _ => rfl⟩
    · rw [if_neg h]; exact ⟨fun h1 => absurd h1 (by decide), fun h1 => absurd h1 h⟩
  · rw [hraw]
    by_cases h : accum_or w m shape strides data N % 2 ^ k = 0
    · rw [if_pos h]; exact ⟨fun h1 => absurd h1 (by decide), fun h1 => absurd h h1⟩
    · rw [if_neg h]; exact ⟨fun _ => h, fun _ => rfl⟩
  · rw [align_loop_some_iff w true shape strides m k N 0 _ _ hloop,
      mod_word_mod_two_pow w k (le_of_lt hkw), two_pow_dvd_natCast_iff]
    constructor
    · rintro ⟨h1, h2⟩
      refine ⟨h1, fun i hi hgt => ?_⟩
      have := h2 i hi (by rw [zero_add]; exact Or.inr hgt)
      rw [zero_add] at this
      exact (to_uintp_mod_eq_zero_iff w k (le_of_lt hkw) _).mp this
    · rintro ⟨h1, h2⟩
      refine ⟨h1, fun j hj hgt => ?_⟩
      rw [zero_add] at hgt ⊢
      have hgt1 : 1 < m (shape + (j : Int)) := by
        rcases hgt with h | h
        · exact absurd h (by decide)
        · exact h
      exact (to_uintp_mod_eq_zero_iff w k (le_of_lt hkw) _).mpr (h2 j hj hgt1)

/-- C14 on the shape `(3,2)` with strides `(8,6)` at base address 16 and
alignment 4: the accumulated word is `16 | 8 | 6 = 30`, which is not a multiple
of 4, and the call returns false. -/
theorem raw_array_is_aligned_iff_witness :
    accum_or 64 misalignedMem 10 20 16 2 = 30 ∧
    raw_array_is_aligned 64 true 2 10 16 20 ((2 : Int) ^ 2) misalignedMem = 0 :=
  ⟨by decide,
    (raw_array_is_aligned_iff 64 2 10 16 20 2 misalignedMem (by decide) (by decide)
      (fun i hi => by interval_cases i <;> decide)).2.1.mpr (by decide)⟩

/-! ## Conservativeness of the overlap detector -/

/-- One axis of a valid index stays between the two ends of its axis. -/
theorem axis_offset_bounds (d i s : Int) (h0 : 0 ≤ i) (h1 : i < d) :
    min 0 ((d - 1) * s) ≤ i * s ∧ i * s ≤ max 0 ((d - 1) * s) := by
  have hid : i ≤ d - 1 := by omega
  rcases le_total 0 s with hs | hs
  · exact ⟨(min_le_left _ _).trans (mul_nonneg h0 hs),
      (mul_le_mul_of_nonneg_right hid hs).trans (le_max_right _ _)⟩
  · exact ⟨(min_le_right _ _).trans (mul_le_mul_of_nonpos_right hid hs),
      (mul_nonpos_of_nonneg_of_nonpos h0 hs).trans (le_max_left _ _)⟩

/-- The offset of a valid index lies between the least and the greatest
offset. -/
theorem list_offset_bounds (shape : List Int) : ∀ idx strides : List Int,
    valid_index shape idx →
    lower_offset shape strides ≤ list_offset idx strides ∧
      list_offset idx strides ≤ upper_offset shape strides := by
  induction shape with
  | nil =>
    intro idx strides h
    cases idx with
    | nil => cases strides <;> exact ⟨le_refl _, le_refl _⟩
    | cons i is => exact absurd h (by simp [valid_index])
  | cons d ds ih =>
    intro idx strides h
    cases idx with
    | nil => exact absurd h (by simp [valid_index])
    | cons i is =>
      cases strides with
      | nil => exact ⟨le_refl _, le_refl _⟩
      | cons s ss =>
        obtain ⟨h0, h1, h2⟩ := h
        obtain ⟨a1, a2⟩ := axis_offset_bounds d i s h0 h1
        obtain ⟨b1, b2⟩ := ih is ss h2
        exact ⟨add_le_add a1 b1, add_le_add a2 b2⟩

/-- A shape with a valid index has no empty axis. -/
theorem valid_index_no_empty_axis (shape : List Int) : ∀ idx : List Int,
    valid_index shape idx → shape.any (fun d => decide (d ≤ 0)) = false := by
  induction shape with
  | nil => intro idx _; rfl
  | cons d ds ih =>
    intro idx h
    cases idx with
    | nil => exact absurd h (by simp [valid_index])
    | cons i is =>
      obtain ⟨h0, h1, h2⟩ := h
      rw [List.any_cons, ih is h2, Bool.or_false]
      exact decide_eq_false (by omega)

/-- Every byte of a region lies in its bounding byte range. -/
theorem contains_in_bounds (r : MemoryRegion) (x : Int) (h : r.contains x) :
    r.lower ≤ x ∧ x < r.upper := by
  obtain ⟨idx, hv, e, he0, he1, hx⟩ := h
  have hne : r.has_empty_axis = false := valid_index_no_empty_axis r.shape idx hv
  obtain ⟨b1, b2⟩ := list_offset_bounds r.shape idx r.strides hv
  unfold MemoryRegion.lower MemoryRegion.upper
  rw [hne]
  simp only [Bool.false_eq_true, if_false]
  omega

/--
C11: `arrays_overlap` never answers no for two regions that share a byte.
Given a solver that answers `MEM_OVERLAP_NO` only for regions whose bounding
byte ranges do not intersect, if `arrays_overlap` returns 0 then no byte
belongs to both regions.
-/
theorem arrays_overlap_conservative
    (solve_may_share_memory : MemoryRegion → MemoryRegion → precision_mode → mem_overlap_t)
    (hsolver : ∀ a b : MemoryRegion,
      solve_may_share_memory a b precision_mode.NPY_MAY_SHARE_BOUNDS
        = mem_overlap_t.MEM_OVERLAP_NO → bounds_disjoint a b)
    (arr1 arr2 : MemoryRegion)
    (h0 : arrays_overlap solve_may_share_memory arr1 arr2 = 0) :
    ∀ x : Int, ¬ (arr1.contains x ∧ arr2.contains x) := by
  have hno : solve_may_share_memory arr1 arr2 precision_mode.NPY_MAY_SHARE_BOUNDS
      = mem_overlap_t.MEM_OVERLAP_NO := by
    unfold arrays_overlap at h0
    by_contra hc
    simp only [hc, if_false] at h0
    exact absurd h0 (by decide)
  have hd := hsolver arr1 arr2 hno
  rintro x ⟨h1, h2⟩
  obtain ⟨a1, a2⟩ := contains_in_bounds arr1 x h1
  obtain ⟨b1, b2⟩ := contains_in_bounds arr2 x h2
  apply hd
  exact ⟨by omega, by omega, by omega, by omega⟩

/-- C11 on the example of the specification: with the bounding-box solver the
regions at the addresses `[0,8)` and `[8,16)` with unit strides are reported
disjoint, and they share no byte. -/
theorem arrays_overlap_conservative_witness :
    arrays_overlap bounds_only_solver regionLow regionHigh = 0 ∧
    ∀ x : Int, ¬ (regionLow.contains x ∧ regionHigh.contains x) :=
  ⟨by decide,
    arrays_overlap_conservative bounds_only_solver
      (fun a b h => by
        unfold bounds_only_solver at h
        by_cases hd : bounds_disjoint a b
        · exact hd
        · rw [if_neg hd] at h
          exact absurd h (by decide))
      regionLow regionHigh (by decide)⟩

end ArrayAssign
